import Mathlib

/-!
# Buddy allocator and shared-memory registry of the xv6-riscv kernel

A shallow embedding of `kernel/malloc.c`, `kernel/malloc.h` and `kernel/shm.c`.

* Machine words are natural numbers; every C operation that can wrap is written
  with an explicit `% 2 ^ 64` (or the 32-bit conversion `toInt32`).
* The intrusive singly linked free lists are represented by the sequence of
  their block addresses, head first.
* `STACK_STOP` (the heap base), `proc_index` (the affinity token of the calling
  process) and the values returned by `kalloc` are declared outside the
  translated sources; they are parameters of the definitions.
* `panic` halts the kernel: a panicking allocator call returns an error, a panicking
  registry call returns the state in which the kernel stopped.
-/

namespace Xv6

/-! ## Constants and macros of `kernel/malloc.h` -/

/-- Size of the smallest block, in bytes. -/
def UNIT_SIZE : Nat := 32

/-- Number of block scales. -/
def SCALE_NUMBER : Nat := 20

/-- Number of units of the whole heap. -/
def UNIT_NUMBER : Nat := 524288

/-- Mask that extracts the offset inside the 16 MiB heap. -/
def HEAP_MASK : Nat := 0xFFFFFF

/-- Modelled from the spec: `PAGE_SIZE` is declared in a header that is not part of the
translated sources; the configurable constants give `PAGE_SIZE = 4096`. -/
def PAGE_SIZE : Nat := 4096

/-- Modelled from the spec: `HEAP_SIZE` is declared in `memlayout.h`, which is not part of the
translated sources; the configurable constants give `HEAP_SIZE = 16 MiB`. -/
def HEAP_SIZE : Nat := 16777216

/-- Size of `struct header`: one `uint64`. -/
def HEADER_SIZE : Nat := 8

/-- Modulus of `uint64` arithmetic. -/
def WORD : Nat := 2 ^ 64

/-- Conversion of a `uint64` value to `int` (two's complement, 32 bits). -/
def toInt32 (x : Nat) : Int :=
  if x % 2 ^ 32 < 2 ^ 31 then ((x % 2 ^ 32 : Nat) : Int) else ((x % 2 ^ 32 : Nat) : Int) - 2 ^ 32

/-- The macro `UNIT_ROUNDUP(size)`: `(size + UNIT_SIZE - 1) / UNIT_SIZE` on `uint64`. -/
def UNIT_ROUNDUP (size : Nat) : Nat := ((size + UNIT_SIZE - 1) % WORD) / UNIT_SIZE

/-- The macro `PAGE_ROUNDUP(size)`. -/
def PAGE_ROUNDUP (size : Nat) : Nat := ((size + PAGE_SIZE - 1) % WORD) / PAGE_SIZE

/-- The macro `SCALE_TO_SIZE(scale)`: `UNIT_SIZE * (1ul << scale)`. -/
def SCALE_TO_SIZE (scale : Nat) : Nat := (UNIT_SIZE * (1 <<< scale)) % WORD

/-- The macro `SCALE_TO_PAGE(scale)`. -/
def SCALE_TO_PAGE (scale : Nat) : Nat := PAGE_ROUNDUP (SCALE_TO_SIZE scale)

/-- The macro `BLOCK_BIT(scale)`: `(1ul << (scale + 5)) & HEAP_MASK`. -/
def BLOCK_BIT (scale : Nat) : Nat := ((1 <<< (scale + 5)) % WORD) &&& HEAP_MASK

/-- The macro `PAGE_INDEX(addr)`: `((uint64) addr - STACK_STOP) / PAGE_SIZE`. -/
def PAGE_INDEX (STACK_STOP addr : Nat) : Nat := ((addr + WORD - STACK_STOP) % WORD) / PAGE_SIZE

/-- The macro `EQUAL_OR_ZERO(a, b)`. -/
def EQUAL_OR_ZERO (a b : Nat) : Bool := (a == b) || (a == 0)

/-! ## Kernel state touched by the allocator -/

/-- Permission bits `PTE_U | PTE_R | PTE_W` of a user read/write mapping. -/
def PTE_URW : Nat := 22

/-- A page table: virtual page number to physical page number and permission bits. -/
abbrev PageTable := Nat → Option (Nat × Nat)

/-- The allocator state: `freelist.scale`, `freelist.procs`, `freelist.reman`, the header
word `head->scale` stored at each address, and the page table of every process. -/
structure Heap where
  scale : Nat → List Nat
  procs : Nat → Nat
  reman : Nat → Nat
  hdr : Nat → Nat
  pagetable : Nat → PageTable

/-- Kernel panics of `malloc`. -/
inductive Panic where
  | beyond_heap
  | no_space
  deriving DecidableEq, Repr

/-- The C library call `memset(table + lo, v, n)` on a byte table. -/
def memset (table : Nat → Nat) (lo v n : Nat) : Nat → Nat :=
  fun i => if lo ≤ i ∧ i < lo + n then v % 256 else table i

/-! ## Free-list primitives -/

/-- The function `list_pop`: removes and returns the first block of a scale. -/
def list_pop (scale : Nat) (h : Heap) : Nat × Heap :=
  match h.scale scale with
  | [] => (0, h)
  | ans :: rest => (ans, { h with scale := Function.update h.scale scale rest })

/-- The function `list_push`: puts a block in front of the list of a scale. -/
def list_push (block scale : Nat) (h : Heap) : Heap :=
  { h with scale := Function.update h.scale scale (block :: h.scale scale) }

/-- The unlinking loop shared by `list_find_buddy` and `list_find_index`: walks the cells
after the head, unlinks the first block that satisfies the test and returns it, or
returns 0 when the end of the list is reached. -/
def list_unlink (test : Nat → Bool) : List Nat → Nat × List Nat
  | [] => (0, [])
  | b :: rest =>
    if test b then (b, rest)
    else ((list_unlink test rest).1, b :: (list_unlink test rest).2)

/-- The function `list_find_buddy`: searches the list of a scale for the given block and
removes it when found; returns the block, or 0. -/
def list_find_buddy (block scale : Nat) (h : Heap) : Nat × Heap :=
  match h.scale scale with
  | [] => (0, h)
  | temp :: rest =>
    if temp = block then list_pop scale h
    else
      ((list_unlink (fun b => b == block) rest).1,
        { h with
          scale := Function.update h.scale scale
            (temp :: (list_unlink (fun b => b == block) rest).2) })

/-- The test of `list_find_index` on a block: `EQUAL_OR_ZERO(freelist.procs[PAGE_INDEX(block)],
index)`. -/
def affinity (STACK_STOP index : Nat) (h : Heap) : Nat → Bool :=
  fun b => EQUAL_OR_ZERO (h.procs (PAGE_INDEX STACK_STOP b)) index

/-- The function `list_find_index`: searches the list of a scale for the first block whose
starting page is owned by `index` or by nobody, and removes it; returns the block, or 0. -/
def list_find_index (STACK_STOP index scale : Nat) (h : Heap) : Nat × Heap :=
  match h.scale scale with
  | [] => (0, h)
  | temp :: rest =>
    if affinity STACK_STOP index h temp then list_pop scale h
    else
      ((list_unlink (affinity STACK_STOP index h) rest).1,
        { h with
          scale := Function.update h.scale scale
            (temp :: (list_unlink (affinity STACK_STOP index h) rest).2) })

/-! ## `init_malloc`, `malloc`, `malloc_wrapper` -/

/-- The function `init_malloc`: one block at the top scale, zeroed tables. The heap bytes
are zeroed, and no process has a mapping yet. -/
def init_malloc (STACK_STOP : Nat) : Heap where
  scale := fun s => if s = SCALE_NUMBER - 1 then [STACK_STOP] else []
  procs := fun _ => 0
  reman := fun _ => 0
  hdr := fun _ => 0
  pagetable := fun _ _ => none

/-- The scan loop of `malloc`: `scale` runs up to `SCALE_NUMBER`; `minscale` is `none` while
the C variable still holds `-1`. Returns the block found, the scale it was found at, the
value of `minscale` and the state, or `none` when the loop ends without a block. -/
def malloc_scan (STACK_STOP index : Nat) (unit : Int) :
    Nat → Nat → Option Nat → Heap → Option (Nat × Nat × Nat × Heap)
  | 0, _, _, _ => none
  | fuel + 1, scale, minscale, h =>
    if unit ≤ ((1 <<< scale : Nat) : Int) then
      if (list_find_index STACK_STOP index scale h).1 ≠ 0 then
        some ((list_find_index STACK_STOP index scale h).1, scale, minscale.getD scale,
          (list_find_index STACK_STOP index scale h).2)
      else
        malloc_scan STACK_STOP index unit fuel (scale + 1) (some (minscale.getD scale))
          (list_find_index STACK_STOP index scale h).2
    else malloc_scan STACK_STOP index unit fuel (scale + 1) minscale h

/-- The split loop of `malloc`: `for (i = scale; i > minscale; i--)` pushes the upper half
`block + SCALE_TO_SIZE(i - 1)` on the list of scale `i - 1`. -/
def malloc_split (block minscale : Nat) : Nat → Heap → Heap
  | 0, h => h
  | i + 1, h =>
    if minscale < i + 1 then
      malloc_split block minscale i (list_push ((block + SCALE_TO_SIZE i) % WORD) i h)
    else h

/-- The function `malloc` for the process with affinity token `index`: returns the block,
the value written to `*ret_scale`, and the new state. -/
def malloc (STACK_STOP index size : Nat) (h : Heap) : Except Panic (Nat × Nat × Heap) :=
  if toInt32 (UNIT_ROUNDUP size) > (UNIT_NUMBER : Int) then .error .beyond_heap
  else
    match malloc_scan STACK_STOP index (toInt32 (UNIT_ROUNDUP size)) SCALE_NUMBER 0 none h with
    | none => .error .no_space
    | some (block, scale, minscale, h1) =>
      .ok (block, minscale,
        { malloc_split block minscale scale h1 with
          procs := memset h1.procs (PAGE_INDEX STACK_STOP block) index (SCALE_TO_PAGE minscale) })

/-- Modelled from the spec: `mappages` belongs to the virtual-memory mapper, which is not part
of the translated sources. It installs the mappings of every page that overlaps
`[va, va + size)`, page `k` of the range going to page `k` of `[pa, pa + size)`. -/
def mappages (pt : PageTable) (va size pa perm : Nat) : PageTable :=
  fun vpn =>
    if va / PAGE_SIZE ≤ vpn ∧ vpn * PAGE_SIZE < va + size then
      some (pa / PAGE_SIZE + (vpn - va / PAGE_SIZE), perm)
    else pt vpn

/-- The function `malloc_wrapper` for the process with token `index`: returns the user
pointer and the new state. -/
def malloc_wrapper (STACK_STOP index size : Nat) (h : Heap) : Except Panic (Nat × Heap) :=
  match malloc STACK_STOP index ((size + HEADER_SIZE) % WORD) h with
  | .error e => .error e
  | .ok (head, scale, h1) =>
    .ok ((head + HEADER_SIZE) % WORD,
      { h1 with
        hdr := Function.update h1.hdr head scale
        reman := Function.update h1.reman (PAGE_INDEX STACK_STOP head)
          ((h1.reman (PAGE_INDEX STACK_STOP head) + 1) % 256)
        pagetable :=
          if h1.reman (PAGE_INDEX STACK_STOP head) = 0 then
            Function.update h1.pagetable index
              (mappages (h1.pagetable index) head ((size + HEADER_SIZE) % WORD) head PTE_URW)
          else h1.pagetable })

/-! ## `merge_buddy`, `free`, `free_wrapper` -/

/-- The function `merge_buddy`: looks for the buddy of `addr` in the list of `scale`, removes
it when present and returns the address of the merged block, or 0. -/
def merge_buddy (addr scale : Nat) (h : Heap) : Nat × Heap :=
  let heapoffset := addr &&& HEAP_MASK
  let heapnumber := addr - heapoffset
  let buddy := ((heapoffset ^^^ BLOCK_BIT scale) + heapnumber) % WORD
  if (list_find_buddy buddy scale h).1 ≠ 0 then
    (buddy &&& (WORD - 1 - BLOCK_BIT scale), (list_find_buddy buddy scale h).2)
  else (0, (list_find_buddy buddy scale h).2)

/-- The merge loop of `free`: `scale` runs up to `SCALE_NUMBER`; the block is pushed at the
first scale where its buddy is not free. -/
def free_loop : Nat → Nat → Nat → Heap → Heap
  | 0, _, _, h => h
  | fuel + 1, addr, scale, h =>
    if (merge_buddy addr scale h).1 ≠ 0 then
      free_loop fuel (merge_buddy addr scale h).1 (scale + 1) (merge_buddy addr scale h).2
    else list_push addr scale (merge_buddy addr scale h).2

/-- The function `free`. -/
def free (STACK_STOP ptr sed_scale : Nat) (h : Heap) : Heap :=
  { free_loop (SCALE_NUMBER - sed_scale) ptr sed_scale h with
    procs := memset (free_loop (SCALE_NUMBER - sed_scale) ptr sed_scale h).procs
      (PAGE_INDEX STACK_STOP ptr) 0 (SCALE_TO_PAGE sed_scale) }

/-- The unmapping loop of `free_wrapper`: `*walk(pagetable, va, 0) = 0` for
`va = head, head + PAGE_SIZE, ...` while `va <= head + SCALE_TO_SIZE(scale) - 1`. -/
def unmap_loop (last : Nat) : Nat → Nat → PageTable → PageTable
  | 0, _, pt => pt
  | fuel + 1, va, pt =>
    if va ≤ last then
      unmap_loop last fuel ((va + PAGE_SIZE) % WORD) (Function.update pt (va / PAGE_SIZE) none)
    else pt

/-- The function `free_wrapper` called by the process with token `index`. -/
def free_wrapper (STACK_STOP index ptr : Nat) (h : Heap) : Heap :=
  let head := (ptr + WORD - HEADER_SIZE) % WORD
  let scale := h.hdr head
  let count := (h.reman (PAGE_INDEX STACK_STOP head) + 255) % 256
  let h1 : Heap :=
    { h with
      reman := Function.update h.reman (PAGE_INDEX STACK_STOP head) count
      pagetable :=
        if count = 0 then
          Function.update h.pagetable index
            (unmap_loop ((head + SCALE_TO_SIZE scale + WORD - 1) % WORD)
              (HEAP_SIZE / PAGE_SIZE + 1) head (h.pagetable index))
        else h.pagetable }
  free STACK_STOP head scale h1

/-! ## Traces of allocator calls

The code keeps no record of the outstanding allocations; the record below is kept next to
the kernel state to name the live pointers of a trace. -/

/-- A live allocation: the address of its header, the scale stored in the header and the
token of the process that allocated it. -/
structure Alloc where
  head : Nat
  scale : Nat
  owner : Nat
  deriving DecidableEq, Repr

/-- The allocator state together with the record of the live allocations. -/
structure Sys where
  heap : Heap
  live : List Alloc

/-- A call of the allocator by the process with token `index`. -/
inductive Op where
  | malloc (index size : Nat)
  | free (index ptr : Nat)
  deriving DecidableEq, Repr

/-- The user pointer of a live allocation. -/
def Alloc.ptr (a : Alloc) : Nat := (a.head + HEADER_SIZE) % WORD

/-- The state after boot. -/
def boot (STACK_STOP : Nat) : Sys := ⟨init_malloc STACK_STOP, []⟩

/-- One call: a `malloc_wrapper` call that does not panic, or a `free_wrapper` call on a
pointer that is live; anything else is not part of a trace. -/
def step (STACK_STOP : Nat) (s : Sys) : Op → Option Sys
  | .malloc index size =>
    match malloc_wrapper STACK_STOP index size s.heap with
    | .error _ => none
    | .ok (ptr, h) =>
      some ⟨h, ⟨(ptr + WORD - HEADER_SIZE) % WORD, h.hdr ((ptr + WORD - HEADER_SIZE) % WORD),
        index⟩ :: s.live⟩
  | .free index ptr =>
    if s.live.any (fun a => a.ptr == ptr) then
      some ⟨free_wrapper STACK_STOP index ptr s.heap, s.live.eraseP (fun a => a.ptr == ptr)⟩
    else none

/-- A sequence of calls, from a given state. -/
def run (STACK_STOP : Nat) : Sys → List Op → Option Sys
  | s, [] => some s
  | s, op :: ops =>
    match step STACK_STOP s op with
    | none => none
    | some s1 => run STACK_STOP s1 ops

/-- States reachable from `init_malloc` by successful `malloc_wrapper` calls and
`free_wrapper` calls on live pointers. -/
def Reachable (STACK_STOP : Nat) (s : Sys) : Prop :=
  ∃ ops, run STACK_STOP (boot STACK_STOP) ops = some s

/-- The heap base is aligned to the heap size, is not the null address, and the heap lies
inside the 64-bit address space. -/
def BaseOk (STACK_STOP : Nat) : Prop :=
  STACK_STOP % HEAP_SIZE = 0 ∧ 0 < STACK_STOP ∧ STACK_STOP + HEAP_SIZE ≤ WORD

instance (STACK_STOP : Nat) : Decidable (BaseOk STACK_STOP) := by
  unfold BaseOk; infer_instance

/-! ## Blocks -/

/-- Size in bytes of a block of the given scale. -/
def bsize (s : Nat) : Nat := UNIT_SIZE * 2 ^ s

/-- The byte `x` lies in the block of scale `s` that starts at `a`. -/
def inBlock (a s x : Nat) : Prop := a ≤ x ∧ x < a + bsize s

instance (a s x : Nat) : Decidable (inBlock a s x) := by
  unfold inBlock; infer_instance

/-- A block of scale `s` at `a` is a block of the heap: its scale exists, it is aligned to
its own size and it lies inside the heap. -/
def ValidBlock (STACK_STOP a s : Nat) : Prop :=
  s < SCALE_NUMBER ∧ STACK_STOP ≤ a ∧ a + bsize s ≤ STACK_STOP + HEAP_SIZE ∧ bsize s ∣ a

/-- The buddy address computed by `merge_buddy`. -/
def buddy_of (addr scale : Nat) : Nat :=
  (((addr &&& HEAP_MASK) ^^^ BLOCK_BIT scale) + (addr - (addr &&& HEAP_MASK))) % WORD

/-- Number of free blocks that contain the byte `x`. -/
def freeCount (h : Heap) (x : Nat) : Nat :=
  ∑ s in Finset.range SCALE_NUMBER, (h.scale s).countP (fun a => decide (inBlock a s x))

/-- Number of live blocks that contain the byte `x`. -/
def liveCount (live : List Alloc) (x : Nat) : Nat :=
  live.countP (fun a => decide (inBlock a.head a.scale x))

/-- The part of the invariant that concerns the free lists alone: only the
`SCALE_NUMBER` lists are used, they hold blocks of the heap, and below the top scale no
list holds a block together with its buddy. -/
structure ListInv (STACK_STOP : Nat) (h : Heap) : Prop where
  out_of_range : ∀ k, SCALE_NUMBER ≤ k → h.scale k = []
  free_valid : ∀ k a, a ∈ h.scale k → ValidBlock STACK_STOP a k
  coalesced : ∀ k, k < SCALE_NUMBER - 1 → ∀ a ∈ h.scale k, buddy_of a k ∉ h.scale k

/-- Every byte of the heap lies in exactly one block, counting the free blocks, the live
blocks and the blocks that the running call holds in hand (`extra`). -/
def Tiled (STACK_STOP : Nat) (h : Heap) (live : List Alloc) (extra : Nat → Nat) : Prop :=
  ∀ x, STACK_STOP ≤ x → x < STACK_STOP + HEAP_SIZE →
    freeCount h x + liveCount live x + extra x = 1

/-- The invariant of the allocator. -/
structure Inv (STACK_STOP : Nat) (s : Sys) : Prop where
  lists : ListInv STACK_STOP s.heap
  live_valid : ∀ a ∈ s.live, ValidBlock STACK_STOP a.head a.scale ∧ s.heap.hdr a.head = a.scale
  tiling : Tiled STACK_STOP s.heap s.live (fun _ => 0)
  reman_count : ∀ pg, s.heap.reman pg =
    (s.live.countP (fun a => PAGE_INDEX STACK_STOP a.head == pg)) % 256
  procs_owned : ∀ pg, s.heap.procs pg ≠ 0 → ∃ a ∈ s.live,
    PAGE_INDEX STACK_STOP a.head ≤ pg ∧ pg < PAGE_INDEX STACK_STOP a.head + SCALE_TO_PAGE a.scale

/-! ## Shared-memory registry (`kernel/shm.c`)

`MAP_SIZE` is `NPROC`, `SHARE_MEMORY` is a fixed user virtual address; both are declared
outside the translated sources and are parameters. The page table of a process is
represented by its leaf entry for `SHARE_MEMORY`, the only entry the registry touches. -/

/-- An entry of `map.map`. -/
structure Slot where
  id : Nat
  pa : Nat
  ct : Nat
  deriving DecidableEq, Repr

/-- The slot of a zeroed table. -/
def Slot.empty : Slot := ⟨0, 0, 0⟩

/-- The registry state: the table `map.map`, the static `seed` of `unique_id`, the field
`shm` and the leaf page-table entry at `SHARE_MEMORY` of every process, and the pages handed
to `kfree`, latest first. -/
structure Registry where
  map : List Slot
  seed : Nat
  shm : Nat → Nat
  pte : Nat → Option (Nat × Nat)
  freed : List Nat

/-- The result of a registry call: a value and a new state, a kernel panic with the state
in which the kernel stopped, or an access to `map.map[-1]`, outside the table, whose
behaviour C leaves undefined. -/
inductive Outcome (α : Type) where
  | ok (val : α) (st : Registry)
  | panic (st : Registry)
  | undefined

/-- The loop of `map_find`, from index `i` on. -/
def map_find_from (id : Nat) : List Slot → Nat → Option Nat
  | [], _ => none
  | sl :: rest, i => if sl.id = id then some i else map_find_from id rest (i + 1)

/-- The function `map_find`: the first index whose slot has the given id; `none` stands for
the return value `-1`. -/
def map_find (id : Nat) (m : List Slot) : Option Nat := map_find_from id m 0

/-- The multiplier of `unique_id`. -/
def prime : Nat := 1099511628211

/-- The mixing steps of `unique_id` on a 64-bit word. -/
def mix (hash : Nat) : Nat :=
  let h1 := hash ^^^ (hash >>> 30)
  let h2 := (h1 * prime) % WORD
  let h3 := h2 ^^^ (h2 >>> 27)
  let h4 := (h3 * prime) % WORD
  h4 ^^^ (h4 >>> 31)

/-- The function `unique_id`, given the current value of its static `seed`: the value
returned, which is also the new seed. -/
def unique_id (hash seed : Nat) : Nat := mix ((hash + seed) % WORD)

/-- The function `shmjoin` called by process `p`. -/
def shmjoin (SHARE_MEMORY p id : Nat) (s : Registry) : Outcome Nat :=
  match map_find id s.map with
  | none => .undefined
  | some idx =>
    if s.shm p = (s.map.getD idx Slot.empty).id then .ok SHARE_MEMORY s
    else if s.shm p ≠ 0 then .panic s
    else
      .ok SHARE_MEMORY
        { s with
          shm := Function.update s.shm p (s.map.getD idx Slot.empty).id
          map := s.map.set idx
            { s.map.getD idx Slot.empty with ct := ((s.map.getD idx Slot.empty).ct + 1) % WORD }
          pte := Function.update s.pte p (some ((s.map.getD idx Slot.empty).pa, PTE_URW)) }

/-- The function `shmget` called by process `p`, when `kalloc` returns the page `pa`. -/
def shmget (SHARE_MEMORY p pa : Nat) (s : Registry) : Outcome Nat :=
  if s.shm p ≠ 0 then .panic s
  else
    match map_find 0 s.map with
    | none => .panic s
    | some idx =>
      match shmjoin SHARE_MEMORY p (unique_id pa s.seed)
          { s with
            map := s.map.set idx
              { s.map.getD idx Slot.empty with pa := pa, id := unique_id pa s.seed }
            seed := unique_id pa s.seed } with
      | .ok _ s2 => .ok (unique_id pa s.seed) s2
      | .panic s2 => .panic s2
      | .undefined => .undefined

/-- The function `shmfree` called by process `p`. -/
def shmfree (p : Nat) (s : Registry) : Outcome Unit :=
  if s.shm p ≠ 0 then
    match map_find (s.shm p) s.map with
    | none => .panic s
    | some idx =>
      if ((s.map.getD idx Slot.empty).ct + WORD - 1) % WORD = 0 then
        .ok ()
          { s with
            pte := Function.update s.pte p none
            shm := Function.update s.shm p 0
            freed := (s.map.getD idx Slot.empty).pa :: s.freed
            map := s.map.set idx ⟨0, 0, 0⟩ }
      else
        .ok ()
          { s with
            pte := Function.update s.pte p none
            shm := Function.update s.shm p 0
            map := s.map.set idx
              { s.map.getD idx Slot.empty with
                ct := ((s.map.getD idx Slot.empty).ct + WORD - 1) % WORD } }
  else .ok () s

/-- The registry after boot: `NPROC` zeroed slots, no process attached. -/
def shm_boot (NPROC : Nat) : Registry where
  map := List.replicate NPROC Slot.empty
  seed := 0
  shm := fun _ => 0
  pte := fun _ => none
  freed := []

/-- A registry call of process `p`; `pa` is the page that `kalloc` returns. -/
inductive ShmOp where
  | get (p pa : Nat)
  | join (p id : Nat)
  | free (p : Nat)
  deriving DecidableEq, Repr

/-- The state after a call, when the call returns. -/
def Outcome.state {α : Type} : Outcome α → Option Registry
  | .ok _ st => some st
  | .panic _ => none
  | .undefined => none

/-- One call of a process of the process table that neither panics nor reads outside the
table; `kalloc` returns a non-zero page-aligned address. -/
def shm_step (NPROC SHARE_MEMORY : Nat) (s : Registry) : ShmOp → Option Registry
  | .get p pa =>
    if p < NPROC ∧ pa ≠ 0 ∧ pa % PAGE_SIZE = 0 ∧ pa < WORD then
      (shmget SHARE_MEMORY p pa s).state
    else none
  | .join p id => if p < NPROC then (shmjoin SHARE_MEMORY p id s).state else none
  | .free p => if p < NPROC then (shmfree p s).state else none

/-- A sequence of registry calls, from a given state. -/
def shm_run (NPROC SHARE_MEMORY : Nat) : Registry → List ShmOp → Option Registry
  | s, [] => some s
  | s, op :: ops =>
    match shm_step NPROC SHARE_MEMORY s op with
    | none => none
    | some s1 => shm_run NPROC SHARE_MEMORY s1 ops

/-- Registry states reachable from the all-empty table. -/
def ShmReachable (NPROC SHARE_MEMORY : Nat) (s : Registry) : Prop :=
  ∃ ops, shm_run NPROC SHARE_MEMORY (shm_boot NPROC) ops = some s

/-- Number of processes of the process table whose `shm` field holds `id`. -/
def attached (NPROC : Nat) (s : Registry) (id : Nat) : Nat :=
  (List.range NPROC).countP (fun p => s.shm p == id)

/-! ## Sample traces -/

/-- A heap base aligned to the heap size, used in the examples. -/
def sample_base : Nat := 0x87000000

/-- Two processes allocate 1000 and 500 bytes. -/
def trace_two_procs : List Op := [.malloc 1 1000, .malloc 2 500]

/-- The state after `trace_two_procs`. -/
def state_two_procs : Sys :=
  (run sample_base (boot sample_base) trace_two_procs).getD (boot sample_base)

/-- The heap after process 1 allocates 200 more bytes in `state_two_procs`. -/
def heap_after_200 : Heap :=
  match malloc_wrapper sample_base 1 200 state_two_procs.heap with
  | .ok r => r.2
  | .error _ => state_two_procs.heap

/-- The end-to-end scenario "multiple sizes then free all". -/
def trace_free_all : List Op :=
  [.malloc 1 1000, .malloc 1 500, .malloc 1 1000, .malloc 1 2000,
   .malloc 1 (8 * 1024 * 1024 - 8),
   .free 1 (sample_base + 8), .free 1 (sample_base + 1024 + 8),
   .free 1 (sample_base + 2048 + 8), .free 1 (sample_base + 4096 + 8),
   .free 1 (sample_base + 8388608 + 8)]

/-- The state after `trace_free_all`. -/
def state_free_all : Sys :=
  (run sample_base (boot sample_base) trace_free_all).getD (boot sample_base)

/-- Process 1 allocates twice on the first heap page and releases its first block. -/
def trace_shared_page : List Op :=
  [.malloc 1 1000, .malloc 1 1000, .free 1 (sample_base + 8)]

/-- The state after `trace_shared_page`. -/
def state_shared_page : Sys :=
  (run sample_base (boot sample_base) trace_shared_page).getD (boot sample_base)

/-- Every page that overlaps `[ptr, ptr + size)` is mapped user/read/write in the page
table. -/
def mapped_urw (pt : PageTable) (ptr size : Nat) : Prop :=
  ∀ vpn, ptr / PAGE_SIZE ≤ vpn → vpn * PAGE_SIZE < ptr + size → ∃ ppn, pt vpn = some (ppn, PTE_URW)

/-- The count of every live slot is the number of processes attached to its id. -/
def refcount_ok (NPROC : Nat) (s : Registry) : Prop :=
  ∀ sl ∈ s.map, sl.id ≠ 0 → sl.ct = attached NPROC s sl.id

/-- Every attached process maps `SHARE_MEMORY` user/read/write to the page of the slot that
carries its id. -/
def shared_page_ok (NPROC : Nat) (s : Registry) : Prop :=
  ∀ p, p < NPROC → s.shm p ≠ 0 → ∀ sl ∈ s.map, sl.id = s.shm p →
    s.pte p = some (sl.pa, PTE_URW)

/-- The id that `shmget` would generate for the page `pa` is new: it is not the reserved
value 0 and no slot carries it. -/
def fresh_id (s : Registry) (pa : Nat) : Prop :=
  unique_id pa s.seed ≠ 0 ∧ ∀ sl ∈ s.map, sl.id ≠ unique_id pa s.seed

instance (s : Registry) (pa : Nat) : Decidable (fresh_id s pa) := by
  unfold fresh_id; infer_instance

/-- A sequence of registry calls in which every id generated by `shmget` is new. -/
def shm_run_fresh (NPROC SHARE_MEMORY : Nat) : Registry → List ShmOp → Option Registry
  | s, [] => some s
  | s, .get p pa :: ops =>
    if fresh_id s pa then
      match shm_step NPROC SHARE_MEMORY s (.get p pa) with
      | none => none
      | some s1 => shm_run_fresh NPROC SHARE_MEMORY s1 ops
    else none
  | s, op :: ops =>
    match shm_step NPROC SHARE_MEMORY s op with
    | none => none
    | some s1 => shm_run_fresh NPROC SHARE_MEMORY s1 ops

/-- The invariant of the registry along calls that generate new ids: live ids are pairwise
distinct, the count of a live slot is the number of attached processes, empty slots have
count 0, and every attached process is a process of the table, holds the id of a slot and
maps the page of that slot. -/
structure ShmInv (NPROC : Nat) (s : Registry) : Prop where
  uniq : ∀ i j, i < s.map.length → j < s.map.length → (s.map.getD i Slot.empty).id ≠ 0 →
    (s.map.getD i Slot.empty).id = (s.map.getD j Slot.empty).id → i = j
  count : ∀ i, i < s.map.length → (s.map.getD i Slot.empty).id ≠ 0 →
    (s.map.getD i Slot.empty).ct = attached NPROC s (s.map.getD i Slot.empty).id
  empty : ∀ i, i < s.map.length → (s.map.getD i Slot.empty).id = 0 →
    (s.map.getD i Slot.empty).ct = 0
  owner : ∀ p, s.shm p ≠ 0 → p < NPROC ∧ ∃ i, i < s.map.length ∧
    (s.map.getD i Slot.empty).id = s.shm p ∧
    s.pte p = some ((s.map.getD i Slot.empty).pa, PTE_URW)

/-! ## Sample registry traces -/

/-- The value returned by a call, when the call returns. -/
def Outcome.value {α : Type} : Outcome α → Option α
  | .ok v _ => some v
  | .panic _ => none
  | .undefined => none

/-- The call read `map.map[-1]`. -/
def Outcome.off_table {α : Type} : Outcome α → Bool
  | .undefined => true
  | _ => false

/-- A process table of 64 entries, used in the examples. -/
def sample_nproc : Nat := 64

/-- A user virtual address for the shared page, used in the examples. -/
def sample_share : Nat := 0x3fffffd000

/-- Processes 0 and 1 call `shmget`; the second page address makes `unique_id` return the
id of the first call again. -/
def trace_same_id : List ShmOp := [.get 0 0x81d0a000, .get 1 0x6254b08e949000]

/-- The state after `trace_same_id`. -/
def state_same_id : Registry :=
  (shm_run sample_nproc sample_share (shm_boot sample_nproc) trace_same_id).getD
    (shm_boot sample_nproc)

/-- First address of the RAM of the xv6 memory layout, used in the examples. -/
def sample_ram_lo : Nat := 0x80000000

/-- End of the RAM of the xv6 memory layout, used in the examples. -/
def sample_ram_hi : Nat := 0x88000000

/-- Every page that `kalloc` returns along a sequence of calls lies in `[lo, hi)` and is not
a page that a live slot holds at the time of the call. -/
def pages_available (lo hi NPROC SHARE_MEMORY : Nat) : Registry → List ShmOp → Bool
  | _, [] => true
  | s, .get p pa :: ops =>
    decide (lo ≤ pa ∧ pa < hi) && s.map.all (fun sl => sl.id == 0 || sl.pa != pa) &&
      (match shm_step NPROC SHARE_MEMORY s (.get p pa) with
       | none => true
       | some s1 => pages_available lo hi NPROC SHARE_MEMORY s1 ops)
  | s, op :: ops =>
    match shm_step NPROC SHARE_MEMORY s op with
    | none => true
    | some s1 => pages_available lo hi NPROC SHARE_MEMORY s1 ops

/-- Process 60 creates a page in slot 0; processes 0 to 59 create one page each, in slots 1
to 60; process 60 releases its page, creates and releases four more pages, and then creates
a page in slot 0 whose id repeats the id of slot 26, the slot of process 25. Every page is a
RAM page. -/
def trace_ram_pages : List ShmOp :=
  ShmOp.get 60 0x86fc0000 ::
  ((List.range 60).map (fun k => ShmOp.get k (0x86fff000 - 0x1000 * k)) ++
  [.free 60, .get 60 0x80102000, .free 60, .get 60 0x80a71000, .free 60,
   .get 60 0x85fb8000, .free 60, .get 60 0x81170000, .free 60, .get 60 0x80e67000])

/-- The state after `trace_ram_pages`. -/
def state_ram_pages : Registry :=
  (shm_run sample_nproc sample_share (shm_boot sample_nproc) trace_ram_pages).getD
    (shm_boot sample_nproc)

/-- Process 0 creates a shared page. -/
def trace_one_page : List ShmOp := [.get 0 0x87fa0000]

/-- The state after `trace_one_page`. -/
def state_one_page : Registry :=
  (shm_run sample_nproc sample_share (shm_boot sample_nproc) trace_one_page).getD
    (shm_boot sample_nproc)

/-! ## Properties named by the later claims -/

/-- No two live slots carry the same id. -/
def unique_ids (s : Registry) : Prop :=
  ∀ i j, i < s.map.length → j < s.map.length → (s.map.getD i Slot.empty).id ≠ 0 →
    (s.map.getD i Slot.empty).id = (s.map.getD j Slot.empty).id → i = j

/-- No heap page holds bytes of live blocks of two different processes. -/
def no_mingling (STACK_STOP : Nat) (s : Sys) : Prop :=
  ∀ a ∈ s.live, ∀ b ∈ s.live, ∀ x y, inBlock a.head a.scale x → inBlock b.head b.scale y →
    PAGE_INDEX STACK_STOP x = PAGE_INDEX STACK_STOP y → a.owner = b.owner

/-- Every page spanned by a live block is stamped with the token of the process that
allocated the block. -/
def owner_consistent (STACK_STOP : Nat) (s : Sys) : Prop :=
  ∀ a ∈ s.live, ∀ pg, PAGE_INDEX STACK_STOP a.head ≤ pg →
    pg < PAGE_INDEX STACK_STOP a.head + SCALE_TO_PAGE a.scale → s.heap.procs pg = a.owner

/-- Process 2 allocates after `trace_shared_page`. -/
def trace_mingled : List Op :=
  [.malloc 1 1000, .malloc 1 1000, .free 1 (sample_base + 8), .malloc 2 1000]

/-- The state after `trace_mingled`. -/
def state_mingled : Sys :=
  (run sample_base (boot sample_base) trace_mingled).getD (boot sample_base)

/-! ## Arithmetic of blocks and buddies -/

theorem bsize_eq (s : Nat) : bsize s = 2 ^ (s + 5) := by
  unfold bsize UNIT_SIZE
  rw [pow_add]; ring
theorem bsize_pos (s : Nat) : 0 < bsize s := by
  rw [bsize_eq]; positivity
theorem bsize_succ (s : Nat) : bsize (s + 1) = 2 * bsize s := by
  rw [bsize_eq, bsize_eq, pow_succ]; ring
theorem bsize_dvd_heap {s : Nat} (h : s < SCALE_NUMBER) : bsize s ∣ HEAP_SIZE := by
  have e : HEAP_SIZE = 2 ^ 24 := by norm_num [HEAP_SIZE]
  rw [bsize_eq, e]
  unfold SCALE_NUMBER at h
  exact pow_dvd_pow 2 (by omega)
theorem bsize_le_heap {s : Nat} (h : s < SCALE_NUMBER) : bsize s ≤ HEAP_SIZE :=
  Nat.le_of_dvd (by norm_num [HEAP_SIZE]) (bsize_dvd_heap h)

theorem SCALE_TO_SIZE_eq {s : Nat} (h : s < SCALE_NUMBER) : SCALE_TO_SIZE s = bsize s := by
  unfold SCALE_TO_SIZE bsize
  rw [Nat.one_shiftLeft]
  apply Nat.mod_eq_of_lt
  have := bsize_le_heap h
  unfold bsize HEAP_SIZE at this
  unfold WORD
  omega

theorem BLOCK_BIT_eq {s : Nat} (h : s < SCALE_NUMBER - 1) : BLOCK_BIT s = bsize s := by
  unfold SCALE_NUMBER at h
  have e : HEAP_MASK = 2 ^ 24 - 1 := by norm_num [HEAP_MASK]
  unfold BLOCK_BIT
  rw [e, Nat.and_pow_two_sub_one_eq_mod, Nat.one_shiftLeft, bsize_eq]
  have h1 : (2:Nat) ^ (s + 5) < 2 ^ 24 := Nat.pow_lt_pow_right (by norm_num) (by omega)
  have h2 : (2:Nat) ^ (s + 5) < WORD := lt_trans h1 (by norm_num [WORD])
  rw [Nat.mod_eq_of_lt h2, Nat.mod_eq_of_lt h1]
theorem and_mask (a : Nat) : a &&& HEAP_MASK = a % HEAP_SIZE := by
  have e : HEAP_MASK = 2 ^ 24 - 1 := by norm_num [HEAP_MASK]
  have e2 : HEAP_SIZE = 2 ^ 24 := by norm_num [HEAP_SIZE]
  rw [e, e2, Nat.and_pow_two_sub_one_eq_mod]

theorem xor_pow_even (q k : Nat) : (2 ^ (k + 1) * q) ^^^ 2 ^ k = 2 ^ (k + 1) * q + 2 ^ k := by
  apply Nat.eq_of_testBit_eq
  intro i
  have h2 : (2:Nat) ^ k < 2 ^ (k + 1) := Nat.pow_lt_pow_right (by norm_num) (by omega)
  rw [Nat.testBit_xor, Nat.testBit_mul_pow_two_add q h2 i]
  have h0 : (0:Nat) < 2 ^ (k + 1) := by positivity
  have := Nat.testBit_mul_pow_two_add q h0 i
  rw [Nat.add_zero] at this
  rw [this]
  by_cases hi : i < k + 1
  · simp [hi]
  · have hik : ¬ k = i := by omega
    simp [hi, Nat.testBit_two_pow, hik]

theorem and_clear_even (q k : Nat) (hk : k < 64) (hx : 2 ^ (k + 1) * q < 2 ^ 64) :
    (2 ^ (k + 1) * q) &&& (2 ^ 64 - 1 - 2 ^ k) = 2 ^ (k + 1) * q := by
  apply Nat.eq_of_testBit_eq
  intro i
  have hk2 : (2:Nat) ^ k < 2 ^ 64 := Nat.pow_lt_pow_right (by norm_num) hk
  have e : (2:Nat) ^ 64 - 1 - 2 ^ k = 2 ^ 64 - (2 ^ k + 1) := by omega
  rw [Nat.testBit_and, e, Nat.testBit_two_pow_sub_succ hk2]
  have h0 : (0:Nat) < 2 ^ (k + 1) := by positivity
  have := Nat.testBit_mul_pow_two_add q h0 i
  rw [Nat.add_zero] at this
  by_cases hi : i < 64
  · by_cases hik : k = i
    · subst hik
      rw [this]; simp
    · simp [hi, Nat.testBit_two_pow, hik]
  · have : (2 ^ (k + 1) * q).testBit i = false := by
      apply Nat.testBit_lt_two_pow
      exact lt_of_lt_of_le hx (Nat.pow_le_pow_right (by norm_num) (by omega))
    simp [this]

theorem and_clear_odd (q k : Nat) (hk : k < 64) (hx : 2 ^ (k + 1) * q + 2 ^ k < 2 ^ 64) :
    (2 ^ (k + 1) * q + 2 ^ k) &&& (2 ^ 64 - 1 - 2 ^ k) = 2 ^ (k + 1) * q := by
  apply Nat.eq_of_testBit_eq
  intro i
  have hk2 : (2:Nat) ^ k < 2 ^ 64 := Nat.pow_lt_pow_right (by norm_num) hk
  have h2 : (2:Nat) ^ k < 2 ^ (k + 1) := Nat.pow_lt_pow_right (by norm_num) (by omega)
  have e : (2:Nat) ^ 64 - 1 - 2 ^ k = 2 ^ 64 - (2 ^ k + 1) := by omega
  rw [Nat.testBit_and, e, Nat.testBit_two_pow_sub_succ hk2, Nat.testBit_mul_pow_two_add q h2 i]
  have h0 : (0:Nat) < 2 ^ (k + 1) := by positivity
  have := Nat.testBit_mul_pow_two_add q h0 i
  rw [Nat.add_zero] at this
  rw [this]
  by_cases hi : i < k + 1
  · by_cases hik : k = i
    · subst hik; simp
    · simp [hi, Nat.testBit_two_pow, hik]
  · have hik : ¬ k = i := by omega
    simp only [hi, if_false, Nat.testBit_two_pow, hik, decide_False, Bool.not_false, Bool.and_true]
    by_cases h64 : i < 64
    · simp [h64]
    · have hq : (2 ^ (k + 1) * q).testBit i = false := by
        apply Nat.testBit_lt_two_pow
        exact lt_of_lt_of_le (by omega) (Nat.pow_le_pow_right (by norm_num) (Nat.le_of_not_lt h64))
      rw [this] at hq
      simp only [hi, if_false] at hq
      simp [hq]

theorem bsize_top : bsize (SCALE_NUMBER - 1) = HEAP_SIZE := by
  norm_num [bsize, SCALE_NUMBER, HEAP_SIZE, UNIT_SIZE]

theorem BLOCK_BIT_top : BLOCK_BIT (SCALE_NUMBER - 1) = 0 := by
  decide

theorem dvd_lt_add_le {d a b : Nat} (ha : d ∣ a) (hb : d ∣ b) (hab : a < b) : a + d ≤ b := by
  have h1 : d ∣ b - a := Nat.dvd_sub' hb ha
  have h2 : d ≤ b - a := Nat.le_of_dvd (by omega) h1
  omega

theorem buddy_cases {base a s : Nat} (hb : BaseOk base) (hv : ValidBlock base a s)
    (hs : s < SCALE_NUMBER - 1) :
    (bsize (s + 1) ∣ a ∧ buddy_of a s = a + bsize s ∧
      (a + bsize s) &&& (WORD - 1 - BLOCK_BIT s) = a) ∨
    (bsize s ≤ a ∧ base ≤ a - bsize s ∧ bsize (s + 1) ∣ a - bsize s ∧
      buddy_of a s = a - bsize s ∧
      (a - bsize s) &&& (WORD - 1 - BLOCK_BIT s) = a - bsize s) := by
  obtain ⟨hb1, hb2, hb3⟩ := hb
  obtain ⟨hs20, hlo, hhi, hdvd⟩ := hv
  have hd := bsize_pos s
  have hD := bsize_succ s
  have hs1 : s + 1 < SCALE_NUMBER := by omega
  have hDh : bsize (s + 1) ∣ HEAP_SIZE := bsize_dvd_heap hs1
  have hHb : HEAP_SIZE ∣ base := Nat.dvd_of_mod_eq_zero hb1
  have hDb : bsize (s + 1) ∣ base := dvd_trans hDh hHb
  have hDe : bsize (s + 1) ∣ base + HEAP_SIZE := Dvd.dvd.add hDb hDh
  have hk : s + 5 < 64 := by unfold SCALE_NUMBER at hs; omega
  have hmask : a &&& HEAP_MASK = a - base := by
    rw [and_mask]; unfold HEAP_SIZE at *; omega
  have hnum : a - (a - base) = base := by omega
  have hW : WORD = 2 ^ 64 := rfl
  have hDp : bsize (s + 1) = 2 ^ (s + 5 + 1) := by rw [bsize_eq]
  unfold buddy_of
  rw [hmask, hnum, BLOCK_BIT_eq hs]
  obtain ⟨t, ht⟩ := hdvd
  rcases Nat.even_or_odd' t with ⟨q, rfl | rfl⟩
  · left
    have haD : bsize (s + 1) ∣ a := ⟨q, by rw [ht, hD]; ring⟩
    have hlt : a + bsize (s + 1) ≤ base + HEAP_SIZE := dvd_lt_add_le haD hDe (by omega)
    have hoD : bsize (s + 1) ∣ a - base := Nat.dvd_sub' haD hDb
    obtain ⟨u, hu⟩ := hoD
    obtain ⟨v, hv⟩ := haD
    refine ⟨⟨v, hv⟩, ?_, ?_⟩
    · rw [hu, hDp, bsize_eq, xor_pow_even, ← hDp, ← hu, ← bsize_eq]
      rw [Nat.mod_eq_of_lt (by omega)]
      omega
    · have := and_clear_odd v (s + 5) hk (by rw [← hDp, ← hv, ← bsize_eq, ← hW]; omega)
      rw [← hDp, ← hv] at this
      have e2 : WORD - 1 - bsize s = 2 ^ 64 - 1 - 2 ^ (s + 5) := by rw [bsize_eq, hW]
      rw [e2, bsize_eq s]
      exact this
  · right
    have hda : bsize s ≤ a := by rw [ht]; exact Nat.le_mul_of_pos_right _ (by omega)
    have haD : bsize (s + 1) ∣ a - bsize s := ⟨q, by rw [ht, hD]; ring_nf; omega⟩
    have hba : base ≤ a - bsize s := by
      by_contra hcon
      have := dvd_lt_add_le haD hDb (by omega)
      omega
    have hoD : bsize (s + 1) ∣ a - bsize s - base := Nat.dvd_sub' haD hDb
    obtain ⟨u, hu⟩ := hoD
    obtain ⟨v, hv⟩ := haD
    refine ⟨hda, hba, ⟨v, hv⟩, ?_, ?_⟩
    · have e : a - base = 2 ^ (s + 5 + 1) * u + 2 ^ (s + 5) := by
        rw [← hDp, ← hu, ← bsize_eq]; omega
      rw [e, bsize_eq, ← xor_pow_even, Nat.xor_assoc, Nat.xor_self, Nat.xor_zero, ← hDp, ← hu]
      rw [Nat.mod_eq_of_lt (by omega)]
      omega
    · have := and_clear_even v (s + 5) hk (by rw [← hDp, ← hv, ← hW]; omega)
      rw [← hDp, ← hv] at this
      have e2 : WORD - 1 - bsize s = 2 ^ 64 - 1 - 2 ^ (s + 5) := by rw [bsize_eq, hW]
      rw [e2]
      exact this

theorem buddy_top {base a : Nat} (hb : BaseOk base) (hv : ValidBlock base a (SCALE_NUMBER - 1)) :
    a = base ∧ buddy_of a (SCALE_NUMBER - 1) = a := by
  obtain ⟨hb1, hb2, hb3⟩ := hb
  obtain ⟨hs20, hlo, hhi, hdvd⟩ := hv
  rw [bsize_top] at hhi
  have : a = base := by omega
  subst this
  refine ⟨rfl, ?_⟩
  unfold buddy_of
  rw [BLOCK_BIT_top, Nat.xor_zero, and_mask]
  unfold HEAP_SIZE WORD at *
  omega


/-! ## The free-list primitives as list operations -/

theorem list_unlink_eq (t : Nat → Bool) (l : List Nat) :
    list_unlink t l = ((l.find? t).getD 0, l.eraseP t) := by
  induction l with
  | nil => rfl
  | cons b rest ih =>
    unfold list_unlink
    by_cases hb : t b
    · simp [hb, List.find?, List.eraseP]
    · simp [hb, List.find?, List.eraseP, ih]

theorem heap_scale_self (h : Heap) (s : Nat) :
    ({ h with scale := Function.update h.scale s (h.scale s) } : Heap) = h := by
  rw [Function.update_eq_self]

theorem eraseP_beq (block : Nat) (l : List Nat) :
    l.eraseP (fun b => b == block) = l.erase block := by
  induction l with
  | nil => rfl
  | cons c r ih =>
    by_cases hc : c = block
    · subst hc; simp
    · have hc2 : ¬ block = c := fun e => hc e.symm
      have hcb : (c == block) = false := by simpa using hc
      rw [List.erase_cons_tail (by simpa using hc), ← ih]
      simp only [List.eraseP, hcb, cond_false]

theorem find_beq (block : Nat) (l : List Nat) :
    (l.find? (fun b => b == block)).getD 0 = if block ∈ l then block else 0 := by
  induction l with
  | nil => rfl
  | cons c r ih =>
    by_cases hc : c = block
    · subst hc; simp
    · have hc2 : ¬ block = c := fun e => hc e.symm
      have hcb : (c == block) = false := by simpa using hc
      simp only [List.find?, hcb, List.mem_cons, hc2, false_or]
      exact ih

theorem list_find_buddy_eq (block scale : Nat) (h : Heap) :
    list_find_buddy block scale h =
      (if block ∈ h.scale scale then block else 0,
        { h with scale := Function.update h.scale scale ((h.scale scale).erase block) }) := by
  unfold list_find_buddy
  cases hl : h.scale scale with
  | nil =>
    simp only [List.not_mem_nil, if_false, List.erase_nil]
    rw [← hl, heap_scale_self]
  | cons temp rest =>
    simp only
    by_cases ht : temp = block
    · subst ht
      simp [list_pop, hl]
    · have ht2 : ¬ block = temp := fun e => ht e.symm
      rw [if_neg ht, list_unlink_eq, List.erase_cons_tail (by simpa using ht)]
      simp only [eraseP_beq, find_beq, List.mem_cons, ht2, false_or]

theorem list_find_index_eq (base index scale : Nat) (h : Heap) :
    list_find_index base index scale h =
      (((h.scale scale).find? (affinity base index h)).getD 0,
        { h with
          scale := Function.update h.scale scale
            ((h.scale scale).eraseP (affinity base index h)) }) := by
  unfold list_find_index
  cases hl : h.scale scale with
  | nil =>
    simp only [List.find?, List.eraseP, Option.getD]
    rw [← hl, heap_scale_self]
  | cons temp rest =>
    simp only
    by_cases ht : affinity base index h temp = true
    · simp [ht, list_pop, hl, List.find?, List.eraseP]
    · simp only [ht]
      rw [list_unlink_eq]
      simp [List.find?, List.eraseP, ht]

theorem find_perm (t : Nat → Bool) (l : List Nat) (b : Nat) (h : l.find? t = some b) :
    l.Perm (b :: l.eraseP t) := by
  induction l with
  | nil => simp at h
  | cons c r ih =>
    by_cases hc : t c
    · simp [List.find?, hc] at h
      subst h
      simp [List.eraseP, hc]
    · simp [List.find?, hc] at h
      simp only [List.eraseP, hc]
      exact (List.Perm.cons c (ih h)).trans (List.Perm.swap b c _)

theorem find_none_eraseP (t : Nat → Bool) (l : List Nat) (h : l.find? t = none) :
    l.eraseP t = l := by
  apply List.eraseP_of_forall_not
  intro a ha
  have := List.find?_eq_none.mp h a ha
  simpa using this


/-! ## Halves of a block -/

theorem valid_lower {base P s : Nat} (hv : ValidBlock base P (s + 1)) : ValidBlock base P s := by
  obtain ⟨h1, h2, h3, h4⟩ := hv
  have := bsize_succ s
  have := bsize_pos s
  exact ⟨by omega, h2, by omega, dvd_trans ⟨2, by omega⟩ h4⟩

theorem valid_upper {base P s : Nat} (hv : ValidBlock base P (s + 1)) :
    ValidBlock base (P + bsize s) s := by
  obtain ⟨h1, h2, h3, h4⟩ := hv
  have := bsize_succ s
  have := bsize_pos s
  refine ⟨by omega, by omega, by omega, ?_⟩
  exact Dvd.dvd.add (dvd_trans ⟨2, by omega⟩ h4) (dvd_refl _)

theorem not_dvd_half {s a : Nat} (h1 : bsize (s + 1) ∣ a) (h2 : bsize (s + 1) ∣ a + bsize s) :
    False := by
  have h3 : bsize (s + 1) ∣ bsize s := (Nat.dvd_add_right h1).mp h2
  have h4 := Nat.le_of_dvd (bsize_pos s) h3
  have := bsize_succ s
  have := bsize_pos s
  omega

theorem buddy_lower {base P s : Nat} (hb : BaseOk base) (hv : ValidBlock base P (s + 1)) :
    buddy_of P s = P + bsize s ∧ (P + bsize s) &&& (WORD - 1 - BLOCK_BIT s) = P := by
  have hs : s < SCALE_NUMBER - 1 := by have := hv.1; omega
  rcases buddy_cases hb (valid_lower hv) hs with ⟨_, h2, h3⟩ | ⟨h1, _, h3, _, _⟩
  · exact ⟨h2, h3⟩
  · exfalso
    have h4 := hv.2.2.2
    have : P - bsize s + bsize s = P := by omega
    rw [← this] at h4
    exact not_dvd_half h3 h4

theorem buddy_upper {base P s : Nat} (hb : BaseOk base) (hv : ValidBlock base P (s + 1)) :
    buddy_of (P + bsize s) s = P ∧ P &&& (WORD - 1 - BLOCK_BIT s) = P := by
  have hs : s < SCALE_NUMBER - 1 := by have := hv.1; omega
  rcases buddy_cases hb (valid_upper hv) hs with ⟨h1, _, _⟩ | ⟨_, _, _, h4, h5⟩
  · exfalso
    exact not_dvd_half hv.2.2.2 h1
  · have : P + bsize s - bsize s = P := by omega
    rw [this] at h4 h5
    exact ⟨h4, h5⟩

/-- Every block below the top scale is the lower or the upper half of a block of the next
scale; its buddy is the other half, and the merged address is the start of that block. -/
theorem buddy_facts {base a s : Nat} (hb : BaseOk base) (hv : ValidBlock base a s)
    (hs : s < SCALE_NUMBER - 1) :
    ∃ P, ValidBlock base P (s + 1) ∧
      ((a = P ∧ buddy_of a s = P + bsize s) ∨ (a = P + bsize s ∧ buddy_of a s = P)) ∧
      buddy_of a s &&& (WORD - 1 - BLOCK_BIT s) = P := by
  have hE := hb.2.2
  have hDe : bsize (s + 1) ∣ base + HEAP_SIZE :=
    Dvd.dvd.add (dvd_trans (bsize_dvd_heap (by omega)) (Nat.dvd_of_mod_eq_zero hb.1))
      (bsize_dvd_heap (by omega))
  have hd := bsize_pos s
  have hD := bsize_succ s
  obtain ⟨hs20, hlo, hhi, hdvd⟩ := hv
  rcases buddy_cases hb ⟨hs20, hlo, hhi, hdvd⟩ hs with ⟨h1, h2, h3⟩ | ⟨h1, h2, h3, h4, h5⟩
  · have hP : ValidBlock base a (s + 1) :=
      ⟨by omega, hlo, dvd_lt_add_le h1 hDe (by omega), h1⟩
    exact ⟨a, hP, Or.inl ⟨rfl, h2⟩, by rw [h2]; exact h3⟩
  · have hP : ValidBlock base (a - bsize s) (s + 1) := ⟨by omega, h2, by omega, h3⟩
    exact ⟨a - bsize s, hP, Or.inr ⟨by omega, h4⟩, by rw [h4]; exact h5⟩

theorem buddy_involution {base a s : Nat} (hb : BaseOk base) (hv : ValidBlock base a s)
    (hs : s < SCALE_NUMBER - 1) :
    ValidBlock base (buddy_of a s) s ∧ buddy_of (buddy_of a s) s = a ∧ buddy_of a s ≠ a := by
  obtain ⟨P, hP, h | h, _⟩ := buddy_facts hb hv hs
  · obtain ⟨rfl, h2⟩ := h
    rw [h2]
    have := bsize_pos s
    exact ⟨valid_upper hP, (buddy_upper hb hP).1, by omega⟩
  · obtain ⟨rfl, h2⟩ := h
    rw [h2]
    have := bsize_pos s
    exact ⟨valid_lower hP, (buddy_lower hb hP).1, by omega⟩

theorem inBlock_split (P s x : Nat) :
    (if inBlock P (s + 1) x then 1 else 0) =
      (if inBlock P s x then 1 else 0) + (if inBlock (P + bsize s) s x then 1 else 0) := by
  have := bsize_succ s
  have := bsize_pos s
  unfold inBlock
  split_ifs <;> omega

theorem inBlock_self {base a s : Nat} (_hv : ValidBlock base a s) : inBlock a s a := by
  have := bsize_pos s
  exact ⟨le_refl _, by omega⟩

/-- For an aligned block, membership is a comparison of quotients. -/
theorem inBlock_iff_div {a s x : Nat} (hd : bsize s ∣ a) :
    inBlock a s x ↔ x / bsize s = a / bsize s := by
  obtain ⟨t, rfl⟩ := hd
  have hp := bsize_pos s
  rw [Nat.mul_div_cancel_left _ hp]
  unfold inBlock
  constructor
  · rintro ⟨h1, h2⟩
    apply Nat.div_eq_of_lt_le
    · rw [Nat.mul_comm]; exact h1
    · rw [Nat.add_mul, Nat.one_mul, Nat.mul_comm]; exact h2
  · intro h
    subst h
    constructor
    · exact Nat.mul_div_le x (bsize s)
    · have := Nat.lt_mul_div_succ x hp
      rw [Nat.mul_succ] at this
      exact this


/-! ## Counting blocks and maintaining the list invariant -/

theorem freeCount_update {h h1 : Heap} {k : Nat} {l : List Nat} (hk : k < SCALE_NUMBER)
    (e : h1.scale = Function.update h.scale k l) (x : Nat) :
    freeCount h1 x + (h.scale k).countP (fun a => decide (inBlock a k x)) =
      freeCount h x + l.countP (fun a => decide (inBlock a k x)) := by
  unfold freeCount
  have hm : k ∈ Finset.range SCALE_NUMBER := Finset.mem_range.mpr hk
  rw [← Finset.add_sum_erase _ _ hm, ← Finset.add_sum_erase _ (fun s => (h.scale s).countP _) hm]
  have : ∑ s in (Finset.range SCALE_NUMBER).erase k,
      (h1.scale s).countP (fun a => decide (inBlock a s x)) =
      ∑ s in (Finset.range SCALE_NUMBER).erase k,
        (h.scale s).countP (fun a => decide (inBlock a s x)) := by
    apply Finset.sum_congr rfl
    intro s hs
    rw [e, Function.update_noteq (Finset.ne_of_mem_erase hs)]
  rw [this, e, Function.update_same]
  omega

theorem freeCount_push (b k : Nat) (h : Heap) (hk : k < SCALE_NUMBER) (x : Nat) :
    freeCount (list_push b k h) x = freeCount h x + (if inBlock b k x then 1 else 0) := by
  have := @freeCount_update h (list_push b k h) k _ hk rfl x
  rw [List.countP_cons] at this
  simp only [decide_eq_true_eq] at this
  omega

theorem freeCount_remove {h h1 : Heap} {k b : Nat} {l : List Nat} (hk : k < SCALE_NUMBER)
    (e : h1.scale = Function.update h.scale k l) (hp : (h.scale k).Perm (b :: l)) (x : Nat) :
    freeCount h1 x + (if inBlock b k x then 1 else 0) = freeCount h x := by
  have := freeCount_update hk e x
  rw [hp.countP_eq, List.countP_cons] at this
  simp only [decide_eq_true_eq] at this
  omega

theorem not_inBlock_of_freeCount_zero {h : Heap} {k a x : Nat} (hk : k < SCALE_NUMBER)
    (ha : a ∈ h.scale k) (h0 : freeCount h x = 0) : ¬ inBlock a k x := by
  intro hin
  unfold freeCount at h0
  have := (Finset.sum_eq_zero_iff.mp h0) k (Finset.mem_range.mpr hk)
  rw [List.countP_eq_zero] at this
  have := this a ha
  simp at this
  exact this hin

theorem ListInv.remove {base : Nat} {h h1 : Heap} {k : Nat} {l : List Nat}
    (hi : ListInv base h) (e : h1.scale = Function.update h.scale k l)
    (hsub : ∀ a, a ∈ l → a ∈ h.scale k) : ListInv base h1 := by
  have key : ∀ j a, a ∈ h1.scale j → a ∈ h.scale j := by
    intro j a ha
    rw [e] at ha
    by_cases hj : j = k
    · subst hj; rw [Function.update_same] at ha; exact hsub a ha
    · rw [Function.update_noteq hj] at ha; exact ha
  refine ⟨?_, ?_, ?_⟩
  · intro j hj
    apply List.eq_nil_iff_forall_not_mem.mpr
    intro a ha
    have := key j a ha
    rw [hi.out_of_range j hj] at this
    exact absurd this (List.not_mem_nil a)
  · intro j a ha
    exact hi.free_valid j a (key j a ha)
  · intro j hj a ha hb
    exact hi.coalesced j hj a (key j a ha) (key j _ hb)

theorem ListInv.push {base : Nat} {h : Heap} {b k : Nat} (hb : BaseOk base)
    (hi : ListInv base h) (hv : ValidBlock base b k)
    (hbud : k < SCALE_NUMBER - 1 → buddy_of b k ∉ h.scale k) :
    ListInv base (list_push b k h) := by
  have hsc : ∀ j, (list_push b k h).scale j = if j = k then b :: h.scale k else h.scale j := by
    intro j
    unfold list_push
    by_cases hj : j = k
    · subst hj; simp
    · simp [hj]
  refine ⟨?_, ?_, ?_⟩
  · intro j hj
    have : j ≠ k := by have := hv.1; omega
    rw [hsc, if_neg this]
    exact hi.out_of_range j hj
  · intro j a ha
    rw [hsc] at ha
    by_cases hj : j = k
    · subst hj
      rw [if_pos rfl] at ha
      rcases List.mem_cons.mp ha with e | e
      · subst e; exact hv
      · exact hi.free_valid j a e
    · rw [if_neg hj] at ha
      exact hi.free_valid j a ha
  · intro j hj a ha
    rw [hsc] at ha ⊢
    by_cases hjk : j = k
    · subst hjk
      rw [if_pos rfl] at ha ⊢
      intro hmem
      rcases List.mem_cons.mp ha with e | e
      · subst e
        rcases List.mem_cons.mp hmem with e2 | e2
        · exact (buddy_involution hb hv hj).2.2 e2
        · exact hbud hj e2
      · rcases List.mem_cons.mp hmem with e2 | e2
        · have := (buddy_involution hb (hi.free_valid j a e) hj).2.1
          rw [e2] at this
          rw [this] at hbud
          exact hbud hj e
        · exact hi.coalesced j hj a e e2
    · rw [if_neg hjk] at ha ⊢
      exact hi.coalesced j hj a ha


/-! ## The loops of `malloc` -/

theorem split_addr {base B i : Nat} (hb : BaseOk base) (hv : ValidBlock base B (i + 1)) :
    (B + SCALE_TO_SIZE i) % WORD = B + bsize i := by
  obtain ⟨h1, h2, h3, h4⟩ := hv
  rw [SCALE_TO_SIZE_eq (by omega)]
  have := bsize_succ i
  have := bsize_pos i
  have := hb.2.2
  exact Nat.mod_eq_of_lt (by omega)

theorem malloc_split_fields (B m : Nat) : ∀ i h,
    (malloc_split B m i h).procs = h.procs ∧ (malloc_split B m i h).reman = h.reman ∧
    (malloc_split B m i h).hdr = h.hdr ∧ (malloc_split B m i h).pagetable = h.pagetable := by
  intro i
  induction i with
  | zero => intro h; exact ⟨rfl, rfl, rfl, rfl⟩
  | succ i ih =>
    intro h
    unfold malloc_split
    split_ifs
    · exact ih _
    · exact ⟨rfl, rfl, rfl, rfl⟩

theorem malloc_split_scale {base B m : Nat} (hb : BaseOk base) : ∀ i h,
    ValidBlock base B i → ∀ j, (malloc_split B m i h).scale j =
      if m ≤ j ∧ j < i then (B + bsize j) :: h.scale j else h.scale j := by
  intro i
  induction i with
  | zero => intro h _ j; simp [malloc_split]
  | succ i ih =>
    intro h hv j
    unfold malloc_split
    by_cases hm : m < i + 1
    · rw [if_pos hm, ih _ (valid_lower hv), split_addr hb hv]
      unfold list_push
      by_cases hj : j = i
      · subst hj
        have h1 : ¬ (m ≤ j ∧ j < j) := by omega
        have h2 : m ≤ j ∧ j < j + 1 := by omega
        simp [h1, h2]
      · by_cases hc : m ≤ j ∧ j < i
        · have h2 : m ≤ j ∧ j < i + 1 := by omega
          simp [hc, h2, hj]
        · have h2 : ¬ (m ≤ j ∧ j < i + 1) := by omega
          simp [hc, h2, hj]
    · rw [if_neg hm]
      have h2 : ¬ (m ≤ j ∧ j < i + 1) := by omega
      simp [h2]

theorem malloc_split_count {base B m : Nat} (hb : BaseOk base) : ∀ i h,
    ValidBlock base B i → m ≤ i → ∀ x,
    freeCount (malloc_split B m i h) x + (if inBlock B m x then 1 else 0) =
      freeCount h x + (if inBlock B i x then 1 else 0) := by
  intro i
  induction i with
  | zero =>
    intro h _ hm x
    have : m = 0 := by omega
    subst this
    simp [malloc_split]
  | succ i ih =>
    intro h hv hm x
    unfold malloc_split
    by_cases hlt : m < i + 1
    · rw [if_pos hlt, ih _ (valid_lower hv) (by omega), split_addr hb hv,
        freeCount_push _ _ _ (by have := hv.1; omega), inBlock_split]
      omega
    · rw [if_neg hlt]
      have : m = i + 1 := by omega
      subst this
      rfl

theorem malloc_split_inv {base B m : Nat} (hb : BaseOk base) : ∀ i h,
    ValidBlock base B i → ListInv base h → (∀ j, B ∉ h.scale j) →
    ListInv base (malloc_split B m i h) := by
  intro i
  induction i with
  | zero => intro h _ hi _; exact hi
  | succ i ih =>
    intro h hv hi hB
    unfold malloc_split
    by_cases hlt : m < i + 1
    · rw [if_pos hlt, split_addr hb hv]
      apply ih _ (valid_lower hv)
      · apply ListInv.push hb hi (valid_upper hv)
        intro _
        rw [(buddy_upper hb hv).1]
        exact hB i
      · intro j
        unfold list_push
        by_cases hj : j = i
        · subst hj
          have := bsize_pos j
          simp only [Function.update_same, List.mem_cons, not_or]
          exact ⟨by omega, hB j⟩
        · simp only [Function.update_noteq hj]
          exact hB j
    · rw [if_neg hlt]; exact hi

theorem malloc_scan_spec (base index : Nat) (unit : Int) : ∀ fuel scale minscale h blk s m h1,
    (∀ k a, a ∈ h.scale k → a ≠ 0) →
    malloc_scan base index unit fuel scale minscale h = some (blk, s, m, h1) →
    scale ≤ s ∧ s < scale + fuel ∧ blk ≠ 0 ∧
    (h.scale s).find? (affinity base index h) = some blk ∧
    h1 = { h with
      scale := Function.update h.scale s ((h.scale s).eraseP (affinity base index h)) } ∧
    (∀ m0, minscale = some m0 → m = m0) ∧
    (minscale = none → scale ≤ m ∧ m ≤ s ∧ unit ≤ ((2 ^ m : Nat) : Int) ∧
      ∀ j, scale ≤ j → j < m → ¬ unit ≤ ((2 ^ j : Nat) : Int)) := by
  intro fuel
  induction fuel with
  | zero => intro scale minscale h blk s m h1 _ hr; simp [malloc_scan] at hr
  | succ fuel ih =>
    intro scale minscale h blk s m h1 hnz hr
    unfold malloc_scan at hr
    rw [list_find_index_eq, Nat.one_shiftLeft] at hr
    by_cases hu : unit ≤ ((2 ^ scale : Nat) : Int)
    · rw [if_pos hu] at hr
      simp only at hr
      cases hf : (h.scale scale).find? (affinity base index h) with
      | none =>
        rw [hf] at hr
        simp only [Option.getD_none, ne_eq, not_true_eq_false, if_false] at hr
        rw [find_none_eraseP _ _ hf, heap_scale_self] at hr
        obtain ⟨a1, a2, a3, a4, a5, a6, _⟩ := ih _ _ _ _ _ _ _ hnz hr
        refine ⟨by omega, by omega, a3, a4, a5, ?_, ?_⟩
        · intro m0 hm0
          have := a6 _ rfl
          rw [hm0] at this
          simpa using this
        · intro hn
          have := a6 _ rfl
          rw [hn] at this
          simp only [Option.getD_none] at this
          subst this
          refine ⟨le_refl _, by omega, hu, ?_⟩
          intro j h1 h2; omega
      | some b =>
        have hb0 : b ≠ 0 := hnz _ _ (List.mem_of_find?_eq_some hf)
        rw [hf] at hr
        simp only [Option.getD_some, ne_eq, hb0, not_false_eq_true, if_true, Option.some.injEq,
          Prod.mk.injEq] at hr
        obtain ⟨rfl, rfl, rfl, rfl⟩ := hr
        refine ⟨le_refl _, by omega, hb0, hf, rfl, ?_, ?_⟩
        · intro m0 hm0; rw [hm0]; rfl
        · intro hn
          rw [hn]
          refine ⟨le_refl _, le_refl _, hu, ?_⟩
          intro j h1 h2
          simp only [Option.getD_none] at h2
          omega
    · rw [if_neg hu] at hr
      obtain ⟨a1, a2, a3, a4, a5, a6, a7⟩ := ih _ _ _ _ _ _ _ hnz hr
      refine ⟨by omega, by omega, a3, a4, a5, a6, ?_⟩
      intro hn
      obtain ⟨b1, b2, b3, b4⟩ := a7 hn
      refine ⟨by omega, b2, b3, ?_⟩
      intro j h1 h2
      by_cases hj : j = scale
      · subst hj; exact hu
      · exact b4 j (by omega) h2


/-! ## Successful calls of `malloc` and `malloc_wrapper` -/

theorem valid_le {base B : Nat} : ∀ {s m : Nat}, ValidBlock base B s → m ≤ s → ValidBlock base B m := by
  intro s
  induction s with
  | zero => intro m hv hm; have : m = 0 := by omega
            subst this; exact hv
  | succ s ih =>
    intro m hv hm
    by_cases h : m = s + 1
    · subst h; exact hv
    · exact ih (valid_lower hv) (by omega)

theorem valid_pos {base a s : Nat} (hb : BaseOk base) (hv : ValidBlock base a s) : a ≠ 0 := by
  have := hb.2.1
  have := hv.2.1
  omega

theorem valid_ptr {base a s : Nat} (hb : BaseOk base) (hv : ValidBlock base a s) :
    (a + HEADER_SIZE) % WORD = a + HEADER_SIZE ∧
    (a + HEADER_SIZE + WORD - HEADER_SIZE) % WORD = a := by
  have h1 := hb.2.2
  have h2 := hv.2.2.1
  have h3 : 32 ≤ bsize s := by
    unfold bsize UNIT_SIZE
    exact Nat.le_mul_of_pos_right _ (by positivity)
  unfold HEADER_SIZE WORD at *
  omega

theorem ListInv.congr {base : Nat} {h h1 : Heap} (hi : ListInv base h) (e : h1.scale = h.scale) :
    ListInv base h1 :=
  ⟨fun k hk => by rw [e]; exact hi.out_of_range k hk,
   fun k a ha => by rw [e] at ha; exact hi.free_valid k a ha,
   fun k hk a ha => by rw [e] at ha ⊢; exact hi.coalesced k hk a ha⟩

theorem freeCount_congr {h h1 : Heap} (e : h1.scale = h.scale) (x : Nat) :
    freeCount h1 x = freeCount h x := by
  unfold freeCount; rw [e]

theorem not_mem_of_freeCount_zero {base : Nat} {h : Heap} {B : Nat} (hi : ListInv base h)
    (h0 : freeCount h B = 0) (j : Nat) : B ∉ h.scale j := by
  intro hm
  have hv := hi.free_valid j B hm
  exact not_inBlock_of_freeCount_zero hv.1 hm h0 (inBlock_self hv)

theorem liveCount_cons (a : Alloc) (live : List Alloc) (x : Nat) :
    liveCount (a :: live) x = liveCount live x + (if inBlock a.head a.scale x then 1 else 0) := by
  unfold liveCount
  rw [List.countP_cons]
  simp only [decide_eq_true_eq]

theorem head_ne_of_liveCount_zero {base : Nat} {live : List Alloc} {B : Nat}
    (hv : ∀ a ∈ live, ValidBlock base a.head a.scale) (h0 : liveCount live B = 0) :
    ∀ a ∈ live, a.head ≠ B := by
  intro a ha e
  unfold liveCount at h0
  rw [List.countP_eq_zero] at h0
  have := h0 a ha
  simp only [decide_eq_true_eq] at this
  apply this
  rw [← e]
  exact inBlock_self (hv a ha)

/-- What a successful `malloc` did: the scan found `blk` in the list of scale `s`, the block
was unlinked, split down to `m`, and its pages were stamped. -/
theorem malloc_ok {base index size : Nat} {h h2 : Heap} {blk m : Nat}
    (hnz : ∀ k a, a ∈ h.scale k → a ≠ 0)
    (hr : malloc base index size h = .ok (blk, m, h2)) :
    ∃ s, m ≤ s ∧ s < SCALE_NUMBER ∧ blk ≠ 0 ∧
      (h.scale s).find? (affinity base index h) = some blk ∧
      toInt32 (UNIT_ROUNDUP size) ≤ ((2 ^ m : Nat) : Int) ∧
      (∀ j, j < m → ¬ toInt32 (UNIT_ROUNDUP size) ≤ ((2 ^ j : Nat) : Int)) ∧
      h2 = { malloc_split blk m s
              { h with
                scale := Function.update h.scale s
                  ((h.scale s).eraseP (affinity base index h)) } with
             procs := memset h.procs (PAGE_INDEX base blk) index (SCALE_TO_PAGE m) } := by
  unfold malloc at hr
  split_ifs at hr with hbig
  cases hsc : malloc_scan base index (toInt32 (UNIT_ROUNDUP size)) SCALE_NUMBER 0 none h with
  | none => rw [hsc] at hr; simp at hr
  | some r =>
    obtain ⟨b, s, m1, h1⟩ := r
    rw [hsc] at hr
    simp only [Except.ok.injEq, Prod.mk.injEq] at hr
    obtain ⟨rfl, rfl, rfl⟩ := hr
    obtain ⟨a1, a2, a3, a4, a5, _, a7⟩ := malloc_scan_spec _ _ _ _ _ _ _ _ _ _ _ hnz hsc
    obtain ⟨b1, b2, b3, b4⟩ := a7 rfl
    subst a5
    exact ⟨s, b2, by omega, a3, a4, b3, fun j hj => b4 j (by omega) hj, rfl⟩

theorem malloc_wrapper_ok {base index size : Nat} {h h3 : Heap} {ptr : Nat}
    (hr : malloc_wrapper base index size h = .ok (ptr, h3)) :
    ∃ blk m h2, malloc base index ((size + HEADER_SIZE) % WORD) h = .ok (blk, m, h2) ∧
      ptr = (blk + HEADER_SIZE) % WORD ∧
      h3 = { h2 with
        hdr := Function.update h2.hdr blk m
        reman := Function.update h2.reman (PAGE_INDEX base blk)
          ((h2.reman (PAGE_INDEX base blk) + 1) % 256)
        pagetable :=
          if h2.reman (PAGE_INDEX base blk) = 0 then
            Function.update h2.pagetable index
              (mappages (h2.pagetable index) blk ((size + HEADER_SIZE) % WORD) blk PTE_URW)
          else h2.pagetable } := by
  unfold malloc_wrapper at hr
  cases hm : malloc base index ((size + HEADER_SIZE) % WORD) h with
  | error e => rw [hm] at hr; simp at hr
  | ok r =>
    obtain ⟨blk, m, h2⟩ := r
    rw [hm] at hr
    simp only [Except.ok.injEq, Prod.mk.injEq] at hr
    obtain ⟨rfl, rfl⟩ := hr
    exact ⟨blk, m, h2, rfl, rfl, rfl⟩


/-! ## `malloc_wrapper` keeps the invariant -/

/-- Everything a successful `malloc_wrapper` call did to a state that satisfies the list
invariant. -/
theorem malloc_wrapper_facts {base index size : Nat} {h h3 : Heap} {ptr : Nat}
    (hb : BaseOk base) (hi : ListInv base h)
    (hr : malloc_wrapper base index size h = .ok (ptr, h3)) :
    ∃ blk m sc h1, m ≤ sc ∧ ValidBlock base blk sc ∧
      (h.scale sc).find? (affinity base index h) = some blk ∧
      ptr = blk + HEADER_SIZE ∧ (ptr + WORD - HEADER_SIZE) % WORD = blk ∧
      h1.scale = Function.update h.scale sc ((h.scale sc).eraseP (affinity base index h)) ∧
      h3.scale = (malloc_split blk m sc h1).scale ∧
      h3.procs = memset h.procs (PAGE_INDEX base blk) index (SCALE_TO_PAGE m) ∧
      h3.reman = Function.update h.reman (PAGE_INDEX base blk)
        ((h.reman (PAGE_INDEX base blk) + 1) % 256) ∧
      h3.hdr = Function.update h.hdr blk m ∧
      h3.pagetable =
        (if h.reman (PAGE_INDEX base blk) = 0 then
          Function.update h.pagetable index
            (mappages (h.pagetable index) blk ((size + HEADER_SIZE) % WORD) blk PTE_URW)
        else h.pagetable) ∧
      toInt32 (UNIT_ROUNDUP ((size + HEADER_SIZE) % WORD)) ≤ ((2 ^ m : Nat) : Int) ∧
      (∀ j, j < m → ¬ toInt32 (UNIT_ROUNDUP ((size + HEADER_SIZE) % WORD)) ≤ ((2 ^ j : Nat) : Int)) := by
  obtain ⟨blk, m, h2, hm, hp, rfl⟩ := malloc_wrapper_ok hr
  have hnz : ∀ k a, a ∈ h.scale k → a ≠ 0 := fun k a ha => valid_pos hb (hi.free_valid k a ha)
  obtain ⟨sc, h1, h2', h3', h4, h5, h6, rfl⟩ := malloc_ok hnz hm
  have hv : ValidBlock base blk sc := hi.free_valid sc blk (List.mem_of_find?_eq_some h4)
  have hvp := valid_ptr hb hv
  have hf := malloc_split_fields blk m sc
    { h with scale := Function.update h.scale sc ((h.scale sc).eraseP (affinity base index h)) }
  refine ⟨blk, m, sc, _, h1, hv, h4, ?_, ?_, rfl, rfl, rfl, ?_, ?_, ?_, h5, h6⟩
  · rw [hp, hvp.1]
  · rw [hp, hvp.1, hvp.2]
  · simp only [hf.2.1]
  · simp only [hf.2.2.1]
  · simp only [hf.2.1, hf.2.2.2]

theorem inv_malloc {base index size : Nat} {s : Sys} {h3 : Heap} {ptr : Nat}
    (hb : BaseOk base) (hi : Inv base s)
    (hr : malloc_wrapper base index size s.heap = .ok (ptr, h3)) :
    Inv base ⟨h3, ⟨(ptr + WORD - HEADER_SIZE) % WORD, h3.hdr ((ptr + WORD - HEADER_SIZE) % WORD),
      index⟩ :: s.live⟩ := by
  obtain ⟨blk, m, sc, h1, hms, hv, hfind, _, hhead, hs1, hsc, hprocs, hreman, hhdr, _, _, _⟩ :=
    malloc_wrapper_facts hb hi.lists hr
  rw [hhead]
  have hhm : h3.hdr blk = m := by rw [hhdr, Function.update_same]
  rw [hhm]
  have hperm := find_perm _ _ _ hfind
  have hsc20 : sc < SCALE_NUMBER := hv.1
  have hl1 : ListInv base h1 := hi.lists.remove hs1 (fun a ha => List.mem_of_mem_eraseP ha)
  have ht1 : ∀ x, freeCount h1 x + (if inBlock blk sc x then 1 else 0) = freeCount s.heap x :=
    fun x => freeCount_remove hsc20 hs1 hperm x
  have hblk := hi.tiling blk hv.2.1 (by have := hv.2.2.1; have := bsize_pos sc; omega)
  have hin : inBlock blk sc blk := inBlock_self hv
  have hz := ht1 blk
  rw [if_pos hin] at hz
  simp only [Nat.add_zero] at hblk
  have hfree0 : freeCount h1 blk = 0 := by omega
  have hlive0 : liveCount s.live blk = 0 := by omega
  refine ⟨?_, ?_, ?_, ?_, ?_⟩
  · exact (malloc_split_inv hb sc h1 hv hl1 (not_mem_of_freeCount_zero hl1 hfree0)).congr hsc
  · intro a ha
    rcases List.mem_cons.mp ha with e | e
    · subst e
      exact ⟨valid_le hv hms, hhm⟩
    · refine ⟨(hi.live_valid a e).1, ?_⟩
      have hne := head_ne_of_liveCount_zero (fun a ha => (hi.live_valid a ha).1) hlive0 a e
      simp only [hhdr, Function.update_noteq hne]
      exact (hi.live_valid a e).2
  · intro x hx1 hx2
    have g1 := hi.tiling x hx1 hx2
    have g2 := malloc_split_count (m := m) hb sc h1 hv hms x
    rw [← freeCount_congr hsc] at g2
    have g3 := ht1 x
    show freeCount h3 x + liveCount (_ :: s.live) x + 0 = 1
    rw [liveCount_cons]
    simp only [Nat.add_zero] at g1 ⊢
    omega
  · intro pg
    simp only [hreman, List.countP_cons]
    by_cases hpg : PAGE_INDEX base blk = pg
    · subst hpg
      rw [Function.update_same, hi.reman_count]
      simp
    · rw [Function.update_noteq (fun e => hpg e.symm), hi.reman_count]
      simp [hpg]
  · intro pg hpg
    simp only [hprocs, memset] at hpg
    by_cases hin : PAGE_INDEX base blk ≤ pg ∧ pg < PAGE_INDEX base blk + SCALE_TO_PAGE m
    · exact ⟨_, List.mem_cons_self _ _, hin⟩
    · rw [if_neg hin] at hpg
      obtain ⟨a, ha, h1⟩ := hi.procs_owned pg hpg
      exact ⟨a, List.mem_cons_of_mem _ ha, h1⟩


/-! ## The merge loop of `free` -/

theorem merge_buddy_eq (addr scale : Nat) (h : Heap) :
    merge_buddy addr scale h =
      (if buddy_of addr scale ∈ h.scale scale ∧ buddy_of addr scale ≠ 0 then
          buddy_of addr scale &&& (WORD - 1 - BLOCK_BIT scale)
        else 0,
        { h with
          scale := Function.update h.scale scale
            ((h.scale scale).erase (buddy_of addr scale)) }) := by
  unfold merge_buddy
  simp only
  rw [show ((addr &&& HEAP_MASK ^^^ BLOCK_BIT scale) + (addr - (addr &&& HEAP_MASK))) % WORD =
    buddy_of addr scale from rfl, list_find_buddy_eq]
  by_cases hm : buddy_of addr scale ∈ h.scale scale
  · by_cases h0 : buddy_of addr scale = 0
    · simp [hm, h0]
    · simp [hm, h0]
  · simp [hm]

theorem merge_buddy_fields (addr scale : Nat) (h : Heap) :
    (merge_buddy addr scale h).2.procs = h.procs ∧ (merge_buddy addr scale h).2.reman = h.reman ∧
    (merge_buddy addr scale h).2.hdr = h.hdr ∧
    (merge_buddy addr scale h).2.pagetable = h.pagetable := by
  rw [merge_buddy_eq]
  exact ⟨rfl, rfl, rfl, rfl⟩

theorem free_loop_fields : ∀ fuel addr scale h,
    (free_loop fuel addr scale h).procs = h.procs ∧ (free_loop fuel addr scale h).reman = h.reman ∧
    (free_loop fuel addr scale h).hdr = h.hdr ∧
    (free_loop fuel addr scale h).pagetable = h.pagetable := by
  intro fuel
  induction fuel with
  | zero => intro addr scale h; exact ⟨rfl, rfl, rfl, rfl⟩
  | succ fuel ih =>
    intro addr scale h
    have hm := merge_buddy_fields addr scale h
    unfold free_loop
    split_ifs
    · obtain ⟨a1, a2, a3, a4⟩ := ih (merge_buddy addr scale h).1 (scale + 1)
        (merge_buddy addr scale h).2
      exact ⟨a1.trans hm.1, a2.trans hm.2.1, a3.trans hm.2.2.1, a4.trans hm.2.2.2⟩
    · exact hm

/-- The merge loop of `free`, started with a block in hand, ends with every byte of the heap
in exactly one block and with the list invariant. -/
theorem free_loop_spec {base : Nat} (hb : BaseOk base) (live : List Alloc) :
    ∀ fuel addr scale h, fuel + scale = SCALE_NUMBER → ListInv base h →
      ValidBlock base addr scale →
      Tiled base h live (fun x => if inBlock addr scale x then 1 else 0) →
      ListInv base (free_loop fuel addr scale h) ∧
      Tiled base (free_loop fuel addr scale h) live (fun _ => 0) := by
  intro fuel
  induction fuel with
  | zero =>
    intro addr scale h hf _ hv _
    have := hv.1
    omega
  | succ fuel ih =>
    intro addr scale h hf hi hv ht
    have hself : inBlock addr scale addr := inBlock_self hv
    have hx1 : base ≤ addr := hv.2.1
    have hx2 : addr < base + HEAP_SIZE := by have := hv.2.2.1; have := bsize_pos scale; omega
    have h0 : freeCount h addr = 0 := by
      have := ht addr hx1 hx2
      simp only [if_pos hself] at this
      omega
    unfold free_loop
    by_cases hm : buddy_of addr scale ∈ h.scale scale
    · -- the buddy is free: merge and go up
      have hbv : ValidBlock base (buddy_of addr scale) scale := hi.free_valid _ _ hm
      have hb0 : buddy_of addr scale ≠ 0 := valid_pos hb hbv
      have hs : scale < SCALE_NUMBER - 1 := by
        by_contra hcon
        have e : scale = SCALE_NUMBER - 1 := by have := hv.1; omega
        subst e
        rw [(buddy_top hb hv).2] at hm
        exact not_mem_of_freeCount_zero hi h0 _ hm
      obtain ⟨P, hP, hcase, hmerged⟩ := buddy_facts hb hv hs
      have hP0 : P ≠ 0 := valid_pos hb hP
      have hmb : merge_buddy addr scale h = (P, { h with
          scale := Function.update h.scale scale
            ((h.scale scale).erase (buddy_of addr scale)) }) := by
        rw [merge_buddy_eq, if_pos ⟨hm, hb0⟩, hmerged]
      rw [hmb]
      simp only [ne_eq, hP0, not_false_eq_true, if_true]
      apply ih
      · omega
      · exact hi.remove rfl (fun a ha => List.mem_of_mem_erase ha)
      · exact hP
      · intro x hx1 hx2
        have g1 := ht x hx1 hx2
        have g2 := @freeCount_remove h { h with
          scale := Function.update h.scale scale ((h.scale scale).erase (buddy_of addr scale)) }
          scale _ _ hv.1 rfl (List.perm_cons_erase hm) x
        have g3 := inBlock_split P scale x
        simp only at g1 ⊢
        rcases hcase with ⟨e1, e2⟩ | ⟨e1, e2⟩
        · rw [e2] at g2 ⊢; rw [e1] at g1
          omega
        · rw [e2] at g2 ⊢; rw [e1] at g1
          omega
    · -- the buddy is not free: push the block
      have hne : ¬ (buddy_of addr scale ∈ h.scale scale ∧ buddy_of addr scale ≠ 0) :=
        fun hc => hm hc.1
      have hmb : merge_buddy addr scale h = (0, h) := by
        rw [merge_buddy_eq, if_neg hne, List.erase_of_not_mem hm, heap_scale_self]
      rw [hmb]
      simp only [ne_eq, not_true_eq_false, if_false]
      refine ⟨ListInv.push hb hi hv (fun _ => hm), ?_⟩
      intro x hx1 hx2
      have g1 := ht x hx1 hx2
      rw [freeCount_push _ _ _ hv.1]
      simp only at g1 ⊢
      omega


/-! ## `free_wrapper` keeps the invariant -/

/-- What `free_wrapper` does to each part of the state. -/
theorem free_wrapper_facts (base index ptr : Nat) (h : Heap) :
    ∃ hR : Heap, hR.scale = h.scale ∧
      (free_wrapper base index ptr h).scale =
        (free_loop (SCALE_NUMBER - h.hdr ((ptr + WORD - HEADER_SIZE) % WORD))
          ((ptr + WORD - HEADER_SIZE) % WORD) (h.hdr ((ptr + WORD - HEADER_SIZE) % WORD)) hR).scale ∧
      (free_wrapper base index ptr h).procs =
        memset h.procs (PAGE_INDEX base ((ptr + WORD - HEADER_SIZE) % WORD)) 0
          (SCALE_TO_PAGE (h.hdr ((ptr + WORD - HEADER_SIZE) % WORD))) ∧
      (free_wrapper base index ptr h).reman =
        Function.update h.reman (PAGE_INDEX base ((ptr + WORD - HEADER_SIZE) % WORD))
          ((h.reman (PAGE_INDEX base ((ptr + WORD - HEADER_SIZE) % WORD)) + 255) % 256) ∧
      (free_wrapper base index ptr h).hdr = h.hdr := by
  refine ⟨_, ?_, rfl, ?_, ?_, ?_⟩
  · rfl
  · simp only [free_wrapper, free, (free_loop_fields _ _ _ _).1]
  · simp only [free_wrapper, free, (free_loop_fields _ _ _ _).2.1]
  · simp only [free_wrapper, free, (free_loop_fields _ _ _ _).2.2.1]

theorem live_split {live : List Alloc} {ptr : Nat}
    (hany : live.any (fun a => a.ptr == ptr) = true) :
    ∃ a, a ∈ live ∧ a.ptr = ptr ∧ live.Perm (a :: live.eraseP (fun a => a.ptr == ptr)) := by
  rw [List.any_eq_true] at hany
  obtain ⟨a, ha, hp⟩ := hany
  obtain ⟨b, l1, l2, _, hpb, e1, e2⟩ :=
    List.exists_of_eraseP (p := fun a : Alloc => a.ptr == ptr) ha hp
  refine ⟨b, ?_, by simpa using hpb, ?_⟩
  · rw [e1]; simp
  · rw [e2, e1]
    exact List.perm_middle

theorem inv_free {base index ptr : Nat} {s : Sys} (hb : BaseOk base) (hi : Inv base s)
    (hany : s.live.any (fun a => a.ptr == ptr) = true) :
    Inv base ⟨free_wrapper base index ptr s.heap, s.live.eraseP (fun a => a.ptr == ptr)⟩ := by
  obtain ⟨a, ha, hptr, hperm⟩ := live_split hany
  obtain ⟨hv, hhdr⟩ := hi.live_valid a ha
  have hhead : (ptr + WORD - HEADER_SIZE) % WORD = a.head := by
    rw [← hptr]; unfold Alloc.ptr
    rw [(valid_ptr hb hv).1, (valid_ptr hb hv).2]
  obtain ⟨hR, hRs, hsc, hprocs, hreman, hhdr2⟩ := free_wrapper_facts base index ptr s.heap
  rw [hhead, hhdr] at hsc hprocs
  rw [hhead] at hreman
  have hlR : ListInv base hR := hi.lists.congr hRs
  have hsub : ∀ b, b ∈ s.live.eraseP (fun a => a.ptr == ptr) → b ∈ s.live :=
    fun b hb => List.mem_of_mem_eraseP hb
  have htR : Tiled base hR (s.live.eraseP (fun a => a.ptr == ptr))
      (fun x => if inBlock a.head a.scale x then 1 else 0) := by
    intro x hx1 hx2
    have g1 := hi.tiling x hx1 hx2
    have g2 : liveCount s.live x = liveCount (a :: s.live.eraseP (fun a => a.ptr == ptr)) x :=
      hperm.countP_eq _
    rw [liveCount_cons] at g2
    rw [freeCount_congr hRs]
    simp only [Nat.add_zero] at g1 ⊢
    omega
  have hfuel : SCALE_NUMBER - a.scale + a.scale = SCALE_NUMBER := by
    have := hv.1; omega
  obtain ⟨hl, ht⟩ := free_loop_spec hb _ _ _ _ _ hfuel hlR hv htR
  refine ⟨hl.congr hsc, ?_, ?_, ?_, ?_⟩
  · intro b hb'
    refine ⟨(hi.live_valid b (hsub b hb')).1, ?_⟩
    show (free_wrapper base index ptr s.heap).hdr b.head = b.scale
    rw [hhdr2]
    exact (hi.live_valid b (hsub b hb')).2
  · intro x hx1 hx2
    have := ht x hx1 hx2
    show freeCount (free_wrapper base index ptr s.heap) x + _ + 0 = 1
    rw [freeCount_congr hsc]
    exact this
  · intro pg
    show (free_wrapper base index ptr s.heap).reman pg = _
    have g2 : s.live.countP (fun a => PAGE_INDEX base a.head == pg) =
        (a :: s.live.eraseP (fun a => a.ptr == ptr)).countP
          (fun a => PAGE_INDEX base a.head == pg) := hperm.countP_eq _
    rw [List.countP_cons] at g2
    have g3 := hi.reman_count pg
    rw [hreman]
    by_cases hpg : PAGE_INDEX base a.head = pg
    · subst hpg
      rw [Function.update_same, hi.reman_count, g2]
      simp only [beq_self_eq_true, if_true]
      show _ = List.countP _ (List.eraseP _ s.live) % 256
      omega
    · rw [Function.update_noteq (fun e => hpg e.symm), g3, g2]
      simp [hpg]
  · intro pg hpg
    have hpg' : (free_wrapper base index ptr s.heap).procs pg ≠ 0 := hpg
    rw [hprocs] at hpg'
    unfold memset at hpg'
    by_cases hin : PAGE_INDEX base a.head ≤ pg ∧ pg < PAGE_INDEX base a.head + SCALE_TO_PAGE a.scale
    · rw [if_pos hin] at hpg'
      exact absurd rfl hpg'
    · rw [if_neg hin] at hpg'
      obtain ⟨b, hb1, hb2⟩ := hi.procs_owned pg hpg'
      have hba : b ≠ a := by
        intro e; subst e; exact hin hb2
      have : b ∈ a :: s.live.eraseP (fun a => a.ptr == ptr) := hperm.subset hb1
      rcases List.mem_cons.mp this with e | e
      · exact absurd e hba
      · exact ⟨b, e, hb2⟩


/-! ## The invariant holds in every reachable state -/

theorem init_freeCount {base x : Nat} (h1 : base ≤ x) (h2 : x < base + HEAP_SIZE) :
    freeCount (init_malloc base) x = 1 := by
  unfold freeCount
  rw [Finset.sum_eq_single (SCALE_NUMBER - 1)]
  · have : inBlock base (SCALE_NUMBER - 1) x := ⟨h1, by rw [bsize_top]; exact h2⟩
    simp [init_malloc, this]
  · intro k _ hk
    simp [init_malloc, hk]
  · intro hk
    exact absurd (Finset.mem_range.mpr (by decide)) hk

theorem inv_boot {base : Nat} (hb : BaseOk base) : Inv base (boot base) := by
  refine ⟨⟨?_, ?_, ?_⟩, ?_, ?_, ?_, ?_⟩
  · intro k hk
    have : k ≠ SCALE_NUMBER - 1 := by unfold SCALE_NUMBER at *; omega
    simp [boot, init_malloc, this]
  · intro k a ha
    by_cases hk : k = SCALE_NUMBER - 1
    · subst hk
      simp [boot, init_malloc] at ha
      subst ha
      refine ⟨by decide, le_refl _, ?_, ?_⟩
      · rw [bsize_top]
      · rw [bsize_top]; exact Nat.dvd_of_mod_eq_zero hb.1
    · simp [boot, init_malloc, hk] at ha
  · intro k hk a ha
    have : k ≠ SCALE_NUMBER - 1 := by omega
    simp [boot, init_malloc, this] at ha
  · intro a ha
    simp [boot] at ha
  · intro x h1 h2
    show freeCount (init_malloc base) x + liveCount [] x + 0 = 1
    rw [init_freeCount h1 h2]
    rfl
  · intro pg
    rfl
  · intro pg hpg
    exact absurd rfl hpg

theorem inv_step {base : Nat} (hb : BaseOk base) {s s1 : Sys} {op : Op} (hi : Inv base s)
    (hs : step base s op = some s1) : Inv base s1 := by
  cases op with
  | malloc index size =>
    simp only [step] at hs
    cases hm : malloc_wrapper base index size s.heap with
    | error e => rw [hm] at hs; simp at hs
    | ok r =>
      obtain ⟨ptr, h3⟩ := r
      rw [hm] at hs
      simp only [Option.some.injEq] at hs
      subst hs
      exact inv_malloc hb hi hm
  | free index ptr =>
    simp only [step] at hs
    by_cases hany : s.live.any (fun a => a.ptr == ptr) = true
    · rw [if_pos hany] at hs
      simp only [Option.some.injEq] at hs
      subst hs
      exact inv_free hb hi hany
    · rw [if_neg hany] at hs
      simp at hs

theorem inv_run {base : Nat} (hb : BaseOk base) : ∀ (ops : List Op) (s s1 : Sys), Inv base s →
    run base s ops = some s1 → Inv base s1 := by
  intro ops
  induction ops with
  | nil =>
    intro s s1 hi hr
    simp only [run, Option.some.injEq] at hr
    subst hr; exact hi
  | cons op ops ih =>
    intro s s1 hi hr
    unfold run at hr
    cases hs : step base s op with
    | none => rw [hs] at hr; simp at hr
    | some s2 =>
      rw [hs] at hr
      exact ih s2 s1 (inv_step hb hi hs) hr

theorem inv_reachable {base : Nat} (hb : BaseOk base) {s : Sys} (hr : Reachable base s) :
    Inv base s := by
  obtain ⟨ops, h⟩ := hr
  exact inv_run hb ops _ _ (inv_boot hb) h


/-! ## Allocation followed by release -/

/-- Freeing a block that was just split off: the merge loop takes back every upper half
that the split pushed, and pushes the block at the scale it was found at. -/
theorem free_loop_unsplit {base blk sc : Nat} (hb : BaseOk base) (f0 : Nat → List Nat)
    (hv : ValidBlock base blk sc) (hnb : buddy_of blk sc ∉ f0 sc) :
    ∀ fuel i g, fuel + i = SCALE_NUMBER → i ≤ sc →
      (∀ j, g.scale j = if i ≤ j ∧ j < sc then (blk + bsize j) :: f0 j else f0 j) →
      ∀ j, (free_loop fuel blk i g).scale j = if j = sc then blk :: f0 sc else f0 j := by
  intro fuel
  induction fuel with
  | zero =>
    intro i g hf hi _
    have := hv.1
    omega
  | succ fuel ih =>
    intro i g hf hi hg j
    unfold free_loop
    by_cases hlt : i < sc
    · have hvi : ValidBlock base blk (i + 1) := valid_le hv (by omega)
      have hbl := buddy_lower hb hvi
      have hgi : g.scale i = (blk + bsize i) :: f0 i := by
        rw [hg i, if_pos ⟨le_refl _, hlt⟩]
      have hmb : merge_buddy blk i g = (blk, { g with
          scale := Function.update g.scale i (f0 i) }) := by
        rw [merge_buddy_eq, hbl.1, hgi, hbl.2]
        have h0 : blk + bsize i ≠ 0 := by have := bsize_pos i; omega
        simp [h0]
      rw [hmb]
      simp only [ne_eq, valid_pos hb hv, not_false_eq_true, if_true]
      apply ih (i + 1) _ (by omega) (by omega)
      intro k
      by_cases hk : k = i
      · subst hk
        simp
      · simp only [Function.update_noteq hk, hg k]
        by_cases hc : i ≤ k ∧ k < sc
        · rw [if_pos hc, if_pos ⟨by omega, hc.2⟩]
        · rw [if_neg hc, if_neg (by omega)]
    · have hisc : i = sc := by omega
      subst hisc
      have hgi : g.scale i = f0 i := by rw [hg i, if_neg (by omega)]
      have hmb : merge_buddy blk i g = (0, g) := by
        rw [merge_buddy_eq]
        have hne : ¬ (buddy_of blk i ∈ g.scale i ∧ buddy_of blk i ≠ 0) := by
          rw [hgi]; exact fun hc => hnb hc.1
        rw [if_neg hne, List.erase_of_not_mem (by rw [hgi]; exact hnb), heap_scale_self]
      rw [hmb]
      simp only [ne_eq, not_true_eq_false, if_false, list_push]
      by_cases hj : j = i
      · subst hj
        simp [hgi]
      · simp only [Function.update_noteq hj, if_neg hj, hg j]
        rw [if_neg (by omega)]

/-- The free lists after `malloc_wrapper` followed by `free_wrapper` of the returned pointer,
from a state that satisfies the invariant. -/
theorem round_trip_of_inv {base index index2 size ptr : Nat} {s : Sys} {h1 : Heap}
    (hb : BaseOk base) (hi : Inv base s)
    (hm : malloc_wrapper base index size s.heap = .ok (ptr, h1)) (k : Nat) :
    ((free_wrapper base index2 ptr h1).scale k).Perm (s.heap.scale k) := by
  obtain ⟨blk, m, sc, h0, hms, hv, hfind, _, hhead, hs0, hsc, _, _, hhdr, _, _, _⟩ :=
    malloc_wrapper_facts hb hi.lists hm
  have hperm := find_perm _ _ _ hfind
  have hmem : blk ∈ s.heap.scale sc := List.mem_of_find?_eq_some hfind
  obtain ⟨hR, hRs, hfs, _, _, _⟩ := free_wrapper_facts base index2 ptr h1
  rw [hhead] at hfs
  have hhm : h1.hdr blk = m := by rw [hhdr, Function.update_same]
  rw [hhm] at hfs
  have hl0 : ListInv base h0 := hi.lists.remove hs0 (fun a ha => List.mem_of_mem_eraseP ha)
  -- the block is on no list once unlinked
  have hfree0 : freeCount h0 blk = 0 := by
    have g1 := freeCount_remove hv.1 hs0 hperm blk
    have g2 := hi.tiling blk hv.2.1 (by have := hv.2.2.1; have := bsize_pos sc; omega)
    rw [if_pos (inBlock_self hv)] at g1
    simp only [Nat.add_zero] at g2
    omega
  have hnb : buddy_of blk sc ∉ h0.scale sc := by
    by_cases hs : sc < SCALE_NUMBER - 1
    · intro hc
      have : buddy_of blk sc ∈ s.heap.scale sc := by
        rw [hs0, Function.update_same] at hc
        exact List.mem_of_mem_eraseP hc
      exact hi.lists.coalesced sc hs blk hmem this
    · have e : sc = SCALE_NUMBER - 1 := by have := hv.1; omega
      subst e
      rw [(buddy_top hb hv).2]
      exact not_mem_of_freeCount_zero hl0 hfree0 _
  have hg : ∀ j, hR.scale j = if m ≤ j ∧ j < sc then (blk + bsize j) :: h0.scale j
      else h0.scale j := by
    intro j
    rw [hRs, hsc, malloc_split_scale hb sc h0 hv j]
  have hfuel : SCALE_NUMBER - m + m = SCALE_NUMBER := by have := hv.1; omega
  have hfin := free_loop_unsplit hb h0.scale hv hnb _ m hR hfuel hms hg k
  rw [hfs, hfin, hs0]
  by_cases hk : k = sc
  · subst hk
    rw [if_pos rfl, Function.update_same]
    exact hperm.symm
  · rw [if_neg hk, Function.update_noteq hk]


/-! ## The state with no live allocation -/

theorem exists_block_of_freeCount_pos {h : Heap} {x : Nat} (hpos : 0 < freeCount h x) :
    ∃ k, k < SCALE_NUMBER ∧ ∃ c ∈ h.scale k, inBlock c k x := by
  unfold freeCount at hpos
  obtain ⟨k, hk, hne⟩ := Finset.exists_ne_zero_of_sum_ne_zero (Nat.pos_iff_ne_zero.mp hpos)
  have : 0 < (h.scale k).countP (fun a => decide (inBlock a k x)) := by omega
  rw [List.countP_pos_iff] at this
  obtain ⟨c, hc, hp⟩ := this
  exact ⟨k, Finset.mem_range.mp hk, c, hc, by simpa using hp⟩

theorem two_le_freeCount {h : Heap} {j k a c x : Nat} (hjk : j ≠ k) (hj : j < SCALE_NUMBER)
    (hk : k < SCALE_NUMBER) (ha : a ∈ h.scale j) (hc : c ∈ h.scale k) (hax : inBlock a j x)
    (hcx : inBlock c k x) : 2 ≤ freeCount h x := by
  unfold freeCount
  have hkm : k ∈ Finset.range SCALE_NUMBER := Finset.mem_range.mpr hk
  have hjm : j ∈ (Finset.range SCALE_NUMBER).erase k :=
    Finset.mem_erase.mpr ⟨hjk, Finset.mem_range.mpr hj⟩
  rw [← Finset.add_sum_erase _ _ hkm, ← Finset.add_sum_erase _ _ hjm]
  have h1 : 0 < (h.scale k).countP (fun a => decide (inBlock a k x)) :=
    List.countP_pos_iff.mpr ⟨c, hc, by simpa using hcx⟩
  have h2 : 0 < (h.scale j).countP (fun a => decide (inBlock a j x)) :=
    List.countP_pos_iff.mpr ⟨a, ha, by simpa using hax⟩
  omega

theorem eq_of_inBlock_same_scale {base a c k : Nat} (ha : ValidBlock base a k)
    (hc : ValidBlock base c k) (h : inBlock c k a) : c = a := by
  have e := (inBlock_iff_div hc.2.2.2).mp h
  have h1 := Nat.div_mul_cancel ha.2.2.2
  have h2 := Nat.div_mul_cancel hc.2.2.2
  rw [← h1, ← h2, e]

theorem bsize_dvd_bsize {s t : Nat} (h : s ≤ t) : bsize s ∣ bsize t := by
  rw [bsize_eq, bsize_eq]
  exact pow_dvd_pow 2 (by omega)

theorem no_live_tiling {base : Nat} {s : Sys} (hi : Inv base s) (hl : s.live = []) {x : Nat}
    (h1 : base ≤ x) (h2 : x < base + HEAP_SIZE) : freeCount s.heap x = 1 := by
  have ht := hi.tiling x h1 h2
  rw [hl] at ht
  simpa [liveCount] using ht

theorem div_bsize_of_le {j k x y : Nat} (hjk : j ≤ k) (h : x / bsize j = y / bsize j) :
    x / bsize k = y / bsize k := by
  obtain ⟨t, ht⟩ := bsize_dvd_bsize hjk
  rw [ht, ← Nat.div_div_eq_div_mul, ← Nat.div_div_eq_div_mul, h]

/-- A block of a larger scale that contains a byte of a block contains its buddy too. -/
theorem inBlock_buddy {base a c j k : Nat} (hb : BaseOk base) (ha : ValidBlock base a j)
    (hc : ValidBlock base c k) (hjk : j < k) (h : inBlock c k (buddy_of a j)) :
    inBlock c k a := by
  have hs : j < SCALE_NUMBER - 1 := by have := hc.1; omega
  obtain ⟨P, hP, hcase, _⟩ := buddy_facts hb ha hs
  have hd := bsize_pos j
  have hD := bsize_succ j
  have h1 : inBlock P (j + 1) a := by
    unfold inBlock
    rcases hcase with ⟨e1, _⟩ | ⟨e1, _⟩ <;> omega
  have h2 : inBlock P (j + 1) (buddy_of a j) := by
    unfold inBlock
    rcases hcase with ⟨_, e2⟩ | ⟨_, e2⟩ <;> omega
  have e1 := (inBlock_iff_div hP.2.2.2).mp h1
  have e2 := (inBlock_iff_div hP.2.2.2).mp h2
  have e3 := div_bsize_of_le (show j + 1 ≤ k by omega) (e1.trans e2.symm)
  rw [inBlock_iff_div hc.2.2.2] at h ⊢
  rw [e3]; exact h

theorem lower_lists_empty {base : Nat} {s : Sys} (hb : BaseOk base) (hi : Inv base s)
    (hl : s.live = []) : ∀ j, j < SCALE_NUMBER - 1 → s.heap.scale j = [] := by
  intro j
  induction j using Nat.strong_induction_on with
  | _ j ih =>
    intro hj
    apply List.eq_nil_iff_forall_not_mem.mpr
    intro a ha
    have hva := hi.lists.free_valid j a ha
    obtain ⟨hvb, _, _⟩ := buddy_involution hb hva hj
    have hnb := hi.lists.coalesced j hj a ha
    have hx2 : buddy_of a j < base + HEAP_SIZE := by
      have := hvb.2.2.1; have := bsize_pos j; omega
    have ht := no_live_tiling hi hl hvb.2.1 hx2
    obtain ⟨k, hk, c, hc, hin⟩ := exists_block_of_freeCount_pos (h := s.heap) (x := buddy_of a j) (by omega)
    have hvc := hi.lists.free_valid k c hc
    rcases Nat.lt_trichotomy k j with hlt | heq | hgt
    · rw [ih k hlt (by omega)] at hc
      exact List.not_mem_nil c hc
    · subst heq
      have := eq_of_inBlock_same_scale hvb hvc hin
      subst this
      exact hnb hc
    · have hin2 := inBlock_buddy hb hva hvc hgt hin
      have h2 := two_le_freeCount (by omega) hva.1 hk ha hc (inBlock_self hva) hin2
      have hx2' : a < base + HEAP_SIZE := by
        have := hva.2.2.1; have := bsize_pos j; omega
      have ht2 := no_live_tiling hi hl hva.2.1 hx2'
      omega

/-- With no live allocation, a state that satisfies the invariant is the state after boot. -/
theorem fresh_of_no_live {base : Nat} {s : Sys} (hb : BaseOk base) (hi : Inv base s)
    (hl : s.live = []) :
    (∀ k, s.heap.scale k = if k = SCALE_NUMBER - 1 then [base] else []) ∧
    (∀ pg, s.heap.procs pg = 0) ∧ (∀ pg, s.heap.reman pg = 0) := by
  have hlow := lower_lists_empty hb hi hl
  refine ⟨?_, ?_, ?_⟩
  · intro k
    by_cases hk : k = SCALE_NUMBER - 1
    · subst hk
      rw [if_pos rfl]
      have ht := no_live_tiling hi hl (le_refl base) (by unfold HEAP_SIZE; omega)
      unfold freeCount at ht
      rw [Finset.sum_eq_single (SCALE_NUMBER - 1)] at ht
      · have hall : ∀ a ∈ s.heap.scale (SCALE_NUMBER - 1), a = base :=
          fun a ha => (buddy_top hb (hi.lists.free_valid _ a ha)).1
        have hlen : (s.heap.scale (SCALE_NUMBER - 1)).length = 1 := by
          have hcl : (s.heap.scale (SCALE_NUMBER - 1)).countP
              (fun a => decide (inBlock a (SCALE_NUMBER - 1) base)) =
              (s.heap.scale (SCALE_NUMBER - 1)).length := by
            apply List.countP_eq_length.mpr
            intro a ha
            rw [hall a ha]
            have : inBlock base (SCALE_NUMBER - 1) base :=
              ⟨le_refl _, by have := bsize_pos (SCALE_NUMBER - 1); omega⟩
            simpa using this
          omega
        obtain ⟨c, hc⟩ := List.length_eq_one.mp hlen
        rw [hc]
        rw [hall c (by rw [hc]; simp)]
      · intro j hj hne
        rw [hlow j (by have := Finset.mem_range.mp hj; omega)]
        rfl
      · intro hn
        exact absurd (Finset.mem_range.mpr (by decide)) hn
    · rw [if_neg hk]
      by_cases hk2 : k < SCALE_NUMBER - 1
      · exact hlow k hk2
      · exact hi.lists.out_of_range k (by omega)
  · intro pg
    by_contra hne
    obtain ⟨a, ha, _⟩ := hi.procs_owned pg hne
    rw [hl] at ha
    exact List.not_mem_nil a ha
  · intro pg
    rw [hi.reman_count, hl]
    rfl


/-! ## The slot table -/

theorem map_find_from_spec (id : Nat) : ∀ (m : List Slot) (i k : Nat),
    map_find_from id m i = some k →
    i ≤ k ∧ k - i < m.length ∧ (m.getD (k - i) Slot.empty).id = id ∧
    ∀ j, j < k - i → (m.getD j Slot.empty).id ≠ id := by
  intro m
  induction m with
  | nil => intro i k h; simp [map_find_from] at h
  | cons sl rest ih =>
    intro i k h
    unfold map_find_from at h
    by_cases hs : sl.id = id
    · rw [if_pos hs] at h
      simp only [Option.some.injEq] at h
      subst h
      simp [hs]
    · rw [if_neg hs] at h
      obtain ⟨a1, a2, a3, a4⟩ := ih (i + 1) k h
      have e : k - i = (k - (i + 1)) + 1 := by omega
      refine ⟨by omega, ?_, ?_, ?_⟩
      · rw [e]; simp only [List.length_cons]; omega
      · rw [e]; simpa using a3
      · intro j hj
        cases j with
        | zero => simpa using hs
        | succ j =>
          have := a4 j (by omega)
          simpa using this

theorem map_find_spec {id : Nat} {m : List Slot} {k : Nat} (h : map_find id m = some k) :
    k < m.length ∧ (m.getD k Slot.empty).id = id ∧
    ∀ j, j < k → (m.getD j Slot.empty).id ≠ id := by
  have := map_find_from_spec id m 0 k h
  simpa using this.2

/-- Changing the count or the page of a slot does not change what `map_find` returns. -/
theorem map_find_from_set (id : Nat) : ∀ (m : List Slot) (i idx : Nat) (sl : Slot),
    sl.id = (m.getD idx Slot.empty).id → idx < m.length →
    map_find_from id (m.set idx sl) i = map_find_from id m i := by
  intro m
  induction m with
  | nil => intro i idx sl _ _; rfl
  | cons a rest ih =>
    intro i idx sl hsl hlen
    cases idx with
    | zero =>
      simp only [List.set_cons_zero, map_find_from]
      simp only [List.getD_cons_zero] at hsl
      rw [hsl]
    | succ idx =>
      simp only [List.set_cons_succ, map_find_from]
      simp only [List.getD_cons_succ] at hsl
      rw [ih (i + 1) idx sl hsl (by simpa using hlen)]

theorem getD_set_self (m : List Slot) (idx : Nat) (sl : Slot) (h : idx < m.length) :
    (m.set idx sl).getD idx Slot.empty = sl := by
  simp [List.getD_eq_getElem?_getD, List.getElem?_set, h]

theorem getD_set_other (m : List Slot) (idx j : Nat) (sl : Slot) (h : j ≠ idx) :
    (m.set idx sl).getD j Slot.empty = m.getD j Slot.empty := by
  simp [List.getD_eq_getElem?_getD, List.getElem?_set, Ne.symm h]


/-! ## Counting attached processes -/

theorem countP_update (f : Nat → Nat) (p v id : Nat) : ∀ (l : List Nat), l.Nodup → p ∈ l →
    l.countP (fun q => Function.update f p v q == id) + (if f p = id then 1 else 0) =
      l.countP (fun q => f q == id) + (if v = id then 1 else 0) := by
  intro l
  induction l with
  | nil => intro _ h; simp at h
  | cons q l ih =>
    intro hnd hp
    rw [List.nodup_cons] at hnd
    rw [List.countP_cons, List.countP_cons]
    by_cases hq : q = p
    · subst hq
      have hrest : l.countP (fun r => Function.update f q v r == id) =
          l.countP (fun r => f r == id) := by
        apply List.countP_congr
        intro r hr
        have : r ≠ q := fun e => hnd.1 (e ▸ hr)
        simp [Function.update_noteq this]
      rw [hrest]
      simp only [Function.update_same, beq_iff_eq]
      omega
    · have hp' : p ∈ l := by
        rcases List.mem_cons.mp hp with e | e
        · exact absurd e.symm hq
        · exact e
      have := ih hnd.2 hp'
      simp only [Function.update_noteq hq]
      omega

theorem attached_update (NPROC : Nat) (s s1 : Registry) (p v id : Nat) (hp : p < NPROC)
    (e : s1.shm = Function.update s.shm p v) :
    attached NPROC s1 id + (if s.shm p = id then 1 else 0) =
      attached NPROC s id + (if v = id then 1 else 0) := by
  unfold attached
  rw [e]
  exact countP_update s.shm p v id _ (List.nodup_range NPROC) (List.mem_range.mpr hp)

theorem attached_congr (NPROC : Nat) (s s1 : Registry) (id : Nat) (e : s1.shm = s.shm) :
    attached NPROC s1 id = attached NPROC s id := by
  unfold attached; rw [e]

theorem attached_le (NPROC : Nat) (s : Registry) (id : Nat) : attached NPROC s id ≤ NPROC := by
  unfold attached
  have := List.countP_le_length (fun p => s.shm p == id) (l := List.range NPROC)
  simpa using this

theorem attached_pos (NPROC : Nat) (s : Registry) (p : Nat) (hp : p < NPROC) :
    0 < attached NPROC s (s.shm p) := by
  unfold attached
  rw [List.countP_pos_iff]
  exact ⟨p, List.mem_range.mpr hp, by simp⟩

theorem getD_mem (m : List Slot) (i : Nat) (h : i < m.length) : m.getD i Slot.empty ∈ m := by
  rw [List.getD_eq_getElem _ _ h]
  exact List.getElem_mem h

theorem mem_getD (m : List Slot) (sl : Slot) (h : sl ∈ m) :
    ∃ i, i < m.length ∧ m.getD i Slot.empty = sl := by
  obtain ⟨i, hi, e⟩ := List.getElem_of_mem h
  exact ⟨i, hi, by rw [List.getD_eq_getElem _ _ hi]; exact e⟩

theorem getD_set (m : List Slot) (idx j : Nat) (sl : Slot) (h : idx < m.length) :
    (m.set idx sl).getD j Slot.empty = if j = idx then sl else m.getD j Slot.empty := by
  by_cases hj : j = idx
  · subst hj; rw [if_pos rfl]; exact getD_set_self m j sl h
  · rw [if_neg hj]; exact getD_set_other m idx j sl hj


/-! ## The registry invariant -/

theorem shm_inv_boot (NPROC : Nat) : ShmInv NPROC (shm_boot NPROC) := by
  have hg : ∀ i, ((shm_boot NPROC).map.getD i Slot.empty) = Slot.empty := by
    intro i
    unfold shm_boot
    rw [List.getD_eq_getElem?_getD]
    by_cases h : i < NPROC
    · simp [List.getElem?_replicate, h]
    · simp [List.getElem?_replicate, h]
  refine ⟨?_, ?_, ?_, ?_⟩
  · intro i j _ _ h; rw [hg] at h; exact absurd rfl h
  · intro i _ h; rw [hg] at h; exact absurd rfl h
  · intro i _ _; rw [hg]; rfl
  · intro p h; exact absurd rfl h

theorem getD_set_id (m : List Slot) (idx j : Nat) (sl : Slot) (h : idx < m.length)
    (hs : sl.id = (m.getD idx Slot.empty).id) :
    ((m.set idx sl).getD j Slot.empty).id = (m.getD j Slot.empty).id := by
  rw [getD_set m idx j sl h]
  by_cases c : j = idx
  · subst c; rw [if_pos rfl]; exact hs
  · rw [if_neg c]

theorem getD_set_pa (m : List Slot) (idx j : Nat) (sl : Slot) (h : idx < m.length)
    (hs : sl.pa = (m.getD idx Slot.empty).pa) :
    ((m.set idx sl).getD j Slot.empty).pa = (m.getD j Slot.empty).pa := by
  rw [getD_set m idx j sl h]
  by_cases c : j = idx
  · subst c; rw [if_pos rfl]; exact hs
  · rw [if_neg c]

/-- The registry invariant after a state change that keeps ids and pages, moves process `p`
from id `a` to id `b`, and adjusts the count of slot `idx` accordingly. -/
theorem shm_inv_move {NPROC : Nat} {s s1 : Registry} {p idx a b : Nat} (sl : Slot)
    (hi : ShmInv NPROC s) (hp : p < NPROC) (hlen : idx < s.map.length)
    (hmap : s1.map = s.map.set idx sl) (hsid : sl.id = (s.map.getD idx Slot.empty).id)
    (hspa : sl.pa = (s.map.getD idx Slot.empty).pa)
    (hshm : s1.shm = Function.update s.shm p b) (ha : s.shm p = a)
    (hother : ∀ q, q ≠ p → s1.pte q = s.pte q)
    (hab : ∀ i, i < s.map.length → i ≠ idx → (s.map.getD i Slot.empty).id ≠ 0 →
      (s.map.getD i Slot.empty).id ≠ a ∧ (s.map.getD i Slot.empty).id ≠ b)
    (hct : (s.map.getD idx Slot.empty).id ≠ 0 → sl.ct = attached NPROC s1 sl.id)
    (hz : (s.map.getD idx Slot.empty).id = 0 → sl.ct = 0)
    (hown : b ≠ 0 → (s.map.getD idx Slot.empty).id = b ∧ s1.pte p = some (sl.pa, PTE_URW)) :
    ShmInv NPROC s1 := by
  have hid : ∀ j, (s1.map.getD j Slot.empty).id = (s.map.getD j Slot.empty).id := by
    intro j; rw [hmap]; exact getD_set_id _ _ _ _ hlen hsid
  have hpa : ∀ j, (s1.map.getD j Slot.empty).pa = (s.map.getD j Slot.empty).pa := by
    intro j; rw [hmap]; exact getD_set_pa _ _ _ _ hlen hspa
  have hl : s1.map.length = s.map.length := by rw [hmap, List.length_set]
  refine ⟨?_, ?_, ?_, ?_⟩
  · intro i j hi1 hj1 hne he
    rw [hl] at hi1 hj1
    rw [hid] at hne he
    rw [hid] at he
    exact hi.uniq i j hi1 hj1 hne he
  · intro i hi1 hne
    rw [hl] at hi1
    rw [hid] at hne ⊢
    by_cases c : i = idx
    · subst c
      have e : s1.map.getD i Slot.empty = sl := by rw [hmap]; exact getD_set_self _ _ _ hlen
      rw [e, hct hne, hsid]
    · have e : s1.map.getD i Slot.empty = s.map.getD i Slot.empty := by
        rw [hmap]; exact getD_set_other _ _ _ _ c
      rw [e, hi.count i hi1 hne]
      have g := attached_update NPROC s s1 p b (s.map.getD i Slot.empty).id hp hshm
      obtain ⟨n1, n2⟩ := hab i hi1 c hne
      rw [ha, if_neg (Ne.symm n1), if_neg (Ne.symm n2)] at g
      omega
  · intro i hi1 he
    rw [hl] at hi1
    rw [hid] at he
    by_cases c : i = idx
    · subst c
      have e : s1.map.getD i Slot.empty = sl := by rw [hmap]; exact getD_set_self _ _ _ hlen
      rw [e]; exact hz he
    · have e : s1.map.getD i Slot.empty = s.map.getD i Slot.empty := by
        rw [hmap]; exact getD_set_other _ _ _ _ c
      rw [e]; exact hi.empty i hi1 he
  · intro q hq
    by_cases c : q = p
    · subst c
      rw [hshm, Function.update_same] at hq ⊢
      obtain ⟨h1, h2⟩ := hown hq
      refine ⟨hp, idx, by rw [hl]; exact hlen, by rw [hid]; exact h1, ?_⟩
      rw [h2, hpa, hspa]
    · rw [hshm, Function.update_noteq c] at hq ⊢
      obtain ⟨hq1, i, hi1, hi2, hi3⟩ := hi.owner q hq
      exact ⟨hq1, i, by rw [hl]; exact hi1, by rw [hid]; exact hi2,
        by rw [hother q c, hpa]; exact hi3⟩


/-! ## `shmjoin` and `shmfree` keep the registry invariant -/

theorem shmjoin_inv {NPROC SHARE_MEMORY p id v : Nat} {s s1 : Registry} (hN : NPROC < WORD)
    (hi : ShmInv NPROC s) (hp : p < NPROC) (hr : shmjoin SHARE_MEMORY p id s = .ok v s1) :
    ShmInv NPROC s1 := by
  unfold shmjoin at hr
  cases hf : map_find id s.map with
  | none => rw [hf] at hr; simp at hr
  | some idx =>
    rw [hf] at hr
    simp only at hr
    obtain ⟨hlen, _, _⟩ := map_find_spec hf
    by_cases h1 : s.shm p = (s.map.getD idx Slot.empty).id
    · rw [if_pos h1] at hr
      simp only [Outcome.ok.injEq] at hr
      rw [← hr.2]; exact hi
    · rw [if_neg h1] at hr
      by_cases h2 : s.shm p ≠ 0
      · rw [if_pos h2] at hr; simp at hr
      · rw [if_neg h2] at hr
        simp only [Outcome.ok.injEq] at hr
        obtain ⟨_, rfl⟩ := hr
        have hp0 : s.shm p = 0 := not_not.mp h2
        have hid : (s.map.getD idx Slot.empty).id ≠ 0 := by
          intro e; rw [hp0, e] at h1; exact h1 rfl
        apply shm_inv_move
          { s.map.getD idx Slot.empty with ct := ((s.map.getD idx Slot.empty).ct + 1) % WORD }
          hi hp hlen rfl rfl rfl rfl hp0
        · intro q hq
          exact Function.update_noteq hq _ _
        · intro i hi1 hne hlive
          exact ⟨hlive, fun e => hne (hi.uniq i idx hi1 hlen hlive e)⟩
        · intro _
          have key : ∀ s1 : Registry,
              s1.shm = Function.update s.shm p (s.map.getD idx Slot.empty).id →
              ((s.map.getD idx Slot.empty).ct + 1) % WORD =
                attached NPROC s1 (s.map.getD idx Slot.empty).id := by
            intro s1 e
            have g := attached_update NPROC s s1 p (s.map.getD idx Slot.empty).id
              (s.map.getD idx Slot.empty).id hp e
            rw [hp0, if_neg (Ne.symm hid), if_pos rfl] at g
            have gle := attached_le NPROC s1 (s.map.getD idx Slot.empty).id
            have hc := hi.count idx hlen hid
            rw [Nat.mod_eq_of_lt (by omega)]
            omega
          exact key _ rfl
        · intro e; exact absurd e hid
        · intro _
          exact ⟨rfl, Function.update_same _ _ _⟩

theorem shmfree_inv {NPROC p : Nat} {s s1 : Registry} (hN : NPROC < WORD)
    (hi : ShmInv NPROC s) (hp : p < NPROC) (hr : shmfree p s = .ok () s1) :
    ShmInv NPROC s1 := by
  unfold shmfree at hr
  by_cases h0 : s.shm p ≠ 0
  · rw [if_pos h0] at hr
    cases hf : map_find (s.shm p) s.map with
    | none => rw [hf] at hr; simp at hr
    | some idx =>
      rw [hf] at hr
      simp only at hr
      obtain ⟨hlen, hidx, _⟩ := map_find_spec hf
      have hid : (s.map.getD idx Slot.empty).id ≠ 0 := by rw [hidx]; exact h0
      have hc := hi.count idx hlen hid
      have hpos := attached_pos NPROC s p hp
      have hle := attached_le NPROC s (s.shm p)
      rw [hidx] at hc
      have hm : ((s.map.getD idx Slot.empty).ct + WORD - 1) % WORD =
          (s.map.getD idx Slot.empty).ct - 1 := by
        have : (s.map.getD idx Slot.empty).ct + WORD - 1 =
            ((s.map.getD idx Slot.empty).ct - 1) + WORD := by omega
        rw [this, Nat.add_mod_right]
        exact Nat.mod_eq_of_lt (by omega)
      rw [hm] at hr
      by_cases hz : (s.map.getD idx Slot.empty).ct - 1 = 0
      · -- the last process leaves: the slot is reset
        rw [if_pos hz] at hr
        simp only [Outcome.ok.injEq, true_and] at hr
        subst hr
        have hatt : ∀ id1, attached NPROC
            { s with
              pte := Function.update s.pte p none
              shm := Function.update s.shm p 0
              freed := (s.map.getD idx Slot.empty).pa :: s.freed
              map := s.map.set idx ⟨0, 0, 0⟩ } id1 +
            (if s.shm p = id1 then 1 else 0) =
            attached NPROC s id1 + (if 0 = id1 then 1 else 0) :=
          fun id1 => attached_update NPROC s _ p 0 id1 hp rfl
        refine ⟨?_, ?_, ?_, ?_⟩
        · intro i j hi1 hj1 hne he
          simp only [List.length_set] at hi1 hj1
          simp only [getD_set _ _ _ _ hlen] at hne he
          by_cases ci : i = idx
          · rw [if_pos ci] at hne; exact absurd rfl hne
          · rw [if_neg ci] at hne he
            by_cases cj : j = idx
            · rw [if_pos cj] at he; exact absurd he hne
            · rw [if_neg cj] at he
              exact hi.uniq i j hi1 hj1 hne he
        · intro i hi1 hne
          simp only [List.length_set] at hi1
          simp only [getD_set _ _ _ _ hlen] at hne ⊢
          by_cases ci : i = idx
          · rw [if_pos ci] at hne; exact absurd rfl hne
          · rw [if_neg ci] at hne ⊢
            have g := hatt (s.map.getD i Slot.empty).id
            have hd : s.shm p ≠ (s.map.getD i Slot.empty).id := by
              intro e
              rw [← hidx] at e
              exact ci (hi.uniq idx i hlen hi1 hid e).symm
            rw [if_neg hd, if_neg (Ne.symm hne)] at g
            rw [hi.count i hi1 hne]
            omega
        · intro i hi1 he
          simp only [List.length_set] at hi1
          simp only [getD_set _ _ _ _ hlen] at he ⊢
          by_cases ci : i = idx
          · rw [if_pos ci]
          · rw [if_neg ci] at he ⊢
            exact hi.empty i hi1 he
        · intro q hq
          have cq : q ≠ p := by
            intro e; subst e
            simp only [Function.update_same] at hq
            exact hq rfl
          simp only [Function.update_noteq cq] at hq ⊢
          obtain ⟨hq1, i, hi1, hi2, hi3⟩ := hi.owner q hq
          have ci : i ≠ idx := by
            intro e
            subst e
            have g := hatt (s.shm p)
            rw [if_pos rfl, if_neg (Ne.symm h0)] at g
            have hq2 := attached_pos NPROC
              { s with
                pte := Function.update s.pte p none
                shm := Function.update s.shm p 0
                freed := (s.map.getD i Slot.empty).pa :: s.freed
                map := s.map.set i ⟨0, 0, 0⟩ } q hq1
            simp only [Function.update_noteq cq] at hq2
            rw [← hi2, hidx] at hq2
            omega
          refine ⟨hq1, i, by simpa using hi1, ?_, ?_⟩
          · simp only [getD_set _ _ _ _ hlen, if_neg ci]; exact hi2
          · simp only [getD_set _ _ _ _ hlen, if_neg ci]; exact hi3
      · -- other processes stay attached: only the count changes
        rw [if_neg hz] at hr
        simp only [Outcome.ok.injEq, true_and] at hr
        subst hr
        apply shm_inv_move
          { s.map.getD idx Slot.empty with ct := (s.map.getD idx Slot.empty).ct - 1 }
          hi hp hlen rfl rfl rfl rfl rfl
        · intro q hq
          exact Function.update_noteq hq _ _
        · intro i hi1 hne hlive
          refine ⟨fun e => hne (hi.uniq i idx hi1 hlen hlive (by rw [e, hidx])), hlive⟩
        · intro _
          have key : ∀ s1 : Registry, s1.shm = Function.update s.shm p 0 →
              (s.map.getD idx Slot.empty).ct - 1 =
                attached NPROC s1 (s.map.getD idx Slot.empty).id := by
            intro s1 e
            have g := attached_update NPROC s s1 p 0 (s.shm p) hp e
            rw [if_pos rfl, if_neg (Ne.symm h0)] at g
            rw [hidx]
            omega
          exact key _ rfl
        · intro e; exact absurd e hid
        · intro e; exact absurd rfl e
  · rw [if_neg h0] at hr
    simp only [Outcome.ok.injEq, true_and] at hr
    rw [← hr]; exact hi


/-! ## The registry along calls that generate new ids -/

theorem attached_zero_of_fresh {NPROC pa : Nat} {s : Registry} (hi : ShmInv NPROC s)
    (hfr : fresh_id s pa) : attached NPROC s (unique_id pa s.seed) = 0 := by
  unfold attached
  rw [List.countP_eq_zero]
  intro q _
  simp only [beq_iff_eq]
  intro e
  have hq : s.shm q ≠ 0 := by rw [e]; exact hfr.1
  obtain ⟨_, i, hi1, hi2, _⟩ := hi.owner q hq
  exact hfr.2 _ (getD_mem s.map i hi1) (by rw [hi2, e])

/-- Writing a new id and page into an empty slot keeps the registry invariant. -/
theorem shm_inv_claim {NPROC pa idx : Nat} {s s1 : Registry} (hi : ShmInv NPROC s)
    (hf : map_find 0 s.map = some idx) (hfr : fresh_id s pa)
    (hmap : s1.map = s.map.set idx
      { s.map.getD idx Slot.empty with pa := pa, id := unique_id pa s.seed })
    (hshm : s1.shm = s.shm) (hpte : s1.pte = s.pte) : ShmInv NPROC s1 := by
  obtain ⟨hlen, hidx, _⟩ := map_find_spec hf
  have hl : s1.map.length = s.map.length := by rw [hmap, List.length_set]
  have hg : ∀ j, s1.map.getD j Slot.empty =
      if j = idx then
        { s.map.getD idx Slot.empty with pa := pa, id := unique_id pa s.seed }
      else s.map.getD j Slot.empty := by
    intro j; rw [hmap]; exact getD_set _ _ _ _ hlen
  have hnew : (s1.map.getD idx Slot.empty).id = unique_id pa s.seed := by
    rw [hg, if_pos rfl]
  have hold : ∀ j, j ≠ idx → s1.map.getD j Slot.empty = s.map.getD j Slot.empty := by
    intro j hj; rw [hg, if_neg hj]
  have hne : ∀ j, j < s.map.length → (s.map.getD j Slot.empty).id ≠ unique_id pa s.seed :=
    fun j hj => hfr.2 _ (getD_mem s.map j hj)
  refine ⟨?_, ?_, ?_, ?_⟩
  · intro i j hi1 hj1 hlive he
    rw [hl] at hi1 hj1
    by_cases ci : i = idx
    · by_cases cj : j = idx
      · rw [ci, cj]
      · subst ci
        rw [hnew, hold j cj] at he
        exact absurd he.symm (hne j hj1)
    · by_cases cj : j = idx
      · subst cj
        rw [hnew, hold i ci] at he
        exact absurd he (hne i hi1)
      · rw [hold i ci] at hlive he
        rw [hold j cj] at he
        exact hi.uniq i j hi1 hj1 hlive he
  · intro i hi1 hlive
    rw [hl] at hi1
    by_cases ci : i = idx
    · subst ci
      rw [hnew, attached_congr NPROC s s1 _ hshm, attached_zero_of_fresh hi hfr]
      have hz := hi.empty i hlen hidx
      rw [hg, if_pos rfl]
      exact hz
    · rw [hold i ci] at hlive ⊢
      rw [attached_congr NPROC s s1 _ hshm]
      exact hi.count i hi1 hlive
  · intro i hi1 he
    rw [hl] at hi1
    by_cases ci : i = idx
    · subst ci
      rw [hnew] at he
      exact absurd he hfr.1
    · rw [hold i ci] at he ⊢
      exact hi.empty i hi1 he
  · intro q hq
    rw [hshm] at hq ⊢
    obtain ⟨hq1, i, hi1, hi2, hi3⟩ := hi.owner q hq
    have ci : i ≠ idx := by
      intro e; subst e
      rw [hidx] at hi2
      exact hq hi2.symm
    refine ⟨hq1, i, by rw [hl]; exact hi1, by rw [hold i ci]; exact hi2, ?_⟩
    rw [hpte, hold i ci]; exact hi3

theorem shmget_inv {NPROC SHARE_MEMORY p pa v : Nat} {s s1 : Registry} (hN : NPROC < WORD)
    (hi : ShmInv NPROC s) (hp : p < NPROC) (hfr : fresh_id s pa)
    (hr : shmget SHARE_MEMORY p pa s = .ok v s1) : ShmInv NPROC s1 := by
  unfold shmget at hr
  by_cases h0 : s.shm p ≠ 0
  · rw [if_pos h0] at hr; simp at hr
  · rw [if_neg h0] at hr
    cases hf : map_find 0 s.map with
    | none => rw [hf] at hr; simp at hr
    | some idx =>
      rw [hf] at hr
      simp only at hr
      have hi2 : ShmInv NPROC
          { s with
            map := s.map.set idx
              { s.map.getD idx Slot.empty with pa := pa, id := unique_id pa s.seed }
            seed := unique_id pa s.seed } :=
        shm_inv_claim hi hf hfr rfl rfl rfl
      cases hj : shmjoin SHARE_MEMORY p (unique_id pa s.seed)
          { s with
            map := s.map.set idx
              { s.map.getD idx Slot.empty with pa := pa, id := unique_id pa s.seed }
            seed := unique_id pa s.seed } with
      | ok v2 s2 =>
        rw [hj] at hr
        simp only [Outcome.ok.injEq] at hr
        rw [← hr.2]
        exact shmjoin_inv hN hi2 hp hj
      | panic s2 => rw [hj] at hr; simp at hr
      | undefined => rw [hj] at hr; simp at hr

theorem shm_step_inv {NPROC SHARE_MEMORY : Nat} {s s1 : Registry} {op : ShmOp}
    (hN : NPROC < WORD) (hi : ShmInv NPROC s)
    (hfr : ∀ p pa, op = .get p pa → fresh_id s pa)
    (hs : shm_step NPROC SHARE_MEMORY s op = some s1) : ShmInv NPROC s1 := by
  cases op with
  | get p pa =>
    simp only [shm_step] at hs
    split_ifs at hs with hc
    cases hg : shmget SHARE_MEMORY p pa s with
    | ok v s2 =>
      rw [hg] at hs
      simp only [Outcome.state, Option.some.injEq] at hs
      subst hs
      exact shmget_inv hN hi hc.1 (hfr p pa rfl) hg
    | panic s2 => rw [hg] at hs; simp [Outcome.state] at hs
    | undefined => rw [hg] at hs; simp [Outcome.state] at hs
  | join p id =>
    simp only [shm_step] at hs
    split_ifs at hs with hc
    cases hg : shmjoin SHARE_MEMORY p id s with
    | ok v s2 =>
      rw [hg] at hs
      simp only [Outcome.state, Option.some.injEq] at hs
      subst hs
      exact shmjoin_inv hN hi hc hg
    | panic s2 => rw [hg] at hs; simp [Outcome.state] at hs
    | undefined => rw [hg] at hs; simp [Outcome.state] at hs
  | free p =>
    simp only [shm_step] at hs
    split_ifs at hs with hc
    cases hg : shmfree p s with
    | ok v s2 =>
      rw [hg] at hs
      simp only [Outcome.state, Option.some.injEq] at hs
      subst hs
      exact shmfree_inv hN hi hc hg
    | panic s2 => rw [hg] at hs; simp [Outcome.state] at hs
    | undefined => rw [hg] at hs; simp [Outcome.state] at hs

theorem shm_run_fresh_inv {NPROC SHARE_MEMORY : Nat} (hN : NPROC < WORD) :
    ∀ (ops : List ShmOp) (s s1 : Registry), ShmInv NPROC s →
      shm_run_fresh NPROC SHARE_MEMORY s ops = some s1 → ShmInv NPROC s1 := by
  intro ops
  induction ops with
  | nil =>
    intro s s1 hi hr
    simp only [shm_run_fresh, Option.some.injEq] at hr
    subst hr; exact hi
  | cons op ops ih =>
    intro s s1 hi hr
    cases op with
    | get p pa =>
      simp only [shm_run_fresh] at hr
      split_ifs at hr with hfr
      cases hs : shm_step NPROC SHARE_MEMORY s (.get p pa) with
      | none => rw [hs] at hr; simp at hr
      | some s2 =>
        rw [hs] at hr
        refine ih s2 s1 (shm_step_inv hN hi ?_ hs) hr
        intro p2 pa2 e
        simp only [ShmOp.get.injEq] at e
        rw [← e.2]; exact hfr
    | join p id =>
      simp only [shm_run_fresh] at hr
      cases hs : shm_step NPROC SHARE_MEMORY s (.join p id) with
      | none => rw [hs] at hr; simp at hr
      | some s2 =>
        rw [hs] at hr
        exact ih s2 s1 (shm_step_inv hN hi (fun _ _ e => by simp at e) hs) hr
    | free p =>
      simp only [shm_run_fresh] at hr
      cases hs : shm_step NPROC SHARE_MEMORY s (.free p) with
      | none => rw [hs] at hr; simp at hr
      | some s2 =>
        rw [hs] at hr
        exact ih s2 s1 (shm_step_inv hN hi (fun _ _ e => by simp at e) hs) hr

/-- Along calls in which every generated id is new, the reference counts are right, every
attached process maps the page of its slot, and live ids are pairwise distinct. -/
theorem registry_ok_of_fresh_ids {NPROC SHARE_MEMORY : Nat} (hN : NPROC < WORD)
    (ops : List ShmOp) (s : Registry)
    (hr : shm_run_fresh NPROC SHARE_MEMORY (shm_boot NPROC) ops = some s) :
    refcount_ok NPROC s ∧ shared_page_ok NPROC s ∧
    ∀ i j, i < s.map.length → j < s.map.length → (s.map.getD i Slot.empty).id ≠ 0 →
      (s.map.getD i Slot.empty).id = (s.map.getD j Slot.empty).id → i = j := by
  have hi := shm_run_fresh_inv hN ops _ _ (shm_inv_boot NPROC) hr
  refine ⟨?_, ?_, hi.uniq⟩
  · intro sl hsl hlive
    obtain ⟨i, hi1, rfl⟩ := mem_getD s.map sl hsl
    exact hi.count i hi1 hlive
  · intro p _ hp sl hsl hid
    obtain ⟨j, hj1, rfl⟩ := mem_getD s.map sl hsl
    obtain ⟨_, i, hi1, hi2, hi3⟩ := hi.owner p hp
    have : i = j := hi.uniq i j hi1 hj1 (by rw [hi2]; exact hp) (by rw [hi2, hid])
    subst this
    exact hi3


/-! ## Lemmas for the later claims -/

theorem map_find_from_none (id : Nat) : ∀ (m : List Slot) (i : Nat),
    (∀ sl ∈ m, sl.id ≠ id) → map_find_from id m i = none := by
  intro m
  induction m with
  | nil => intro i _; rfl
  | cons sl rest ih =>
    intro i h
    unfold map_find_from
    rw [if_neg (h sl (List.mem_cons_self _ _))]
    exact ih (i + 1) (fun t ht => h t (List.mem_cons_of_mem _ ht))


theorem two_le_countP {α : Type} (p : α → Bool) : ∀ (l : List α) (a c : α), a ≠ c → a ∈ l →
    c ∈ l → p a = true → p c = true → 2 ≤ l.countP p := by
  intro l
  induction l with
  | nil => intro a c _ ha; simp at ha
  | cons t l ih =>
    intro a c hac ha hc pa pc
    rw [List.countP_cons]
    rcases List.mem_cons.mp ha with e1 | e1
    · rcases List.mem_cons.mp hc with e2 | e2
      · exact absurd (e1.trans e2.symm) hac
      · subst e1
        have : 0 < l.countP p := List.countP_pos_iff.mpr ⟨c, e2, pc⟩
        simp only [pa, if_true]
        omega
    · rcases List.mem_cons.mp hc with e2 | e2
      · subst e2
        have : 0 < l.countP p := List.countP_pos_iff.mpr ⟨a, e1, pa⟩
        simp only [pc, if_true]
        omega
      · have := ih a c hac e1 e2 pa pc
        omega

theorem countP_le_freeCount (h : Heap) {k : Nat} (hk : k < SCALE_NUMBER) (x : Nat) :
    (h.scale k).countP (fun a => decide (inBlock a k x)) ≤ freeCount h x := by
  unfold freeCount
  exact Finset.single_le_sum (f := fun s => (h.scale s).countP (fun a => decide (inBlock a s x)))
    (fun _ _ => Nat.zero_le _) (Finset.mem_range.mpr hk)

/-- The offset form of the alignment of a block of the heap. -/
theorem valid_offset {base a k : Nat} (hb : BaseOk base) (hv : ValidBlock base a k) :
    (a - base) % (UNIT_SIZE * 2 ^ k) = 0 := by
  have h1 : bsize k ∣ base :=
    dvd_trans (bsize_dvd_heap hv.1) (Nat.dvd_of_mod_eq_zero hb.1)
  exact Nat.mod_eq_zero_of_dvd (Nat.dvd_sub' hv.2.2.2 h1)


theorem buddy_of_eq_xor {base a k : Nat} (hb : BaseOk base) (hv : ValidBlock base a k)
    (hk : k < SCALE_NUMBER - 1) :
    buddy_of a k = base + ((a - base) ^^^ (UNIT_SIZE * 2 ^ k)) := by
  obtain ⟨hb1, hb2, hb3⟩ := hb
  obtain ⟨hs20, hlo, hhi, hdvd⟩ := hv
  have hd := bsize_pos k
  have hmask : a &&& HEAP_MASK = a - base := by
    rw [and_mask]; unfold HEAP_SIZE at *; omega
  have hnum : a - (a - base) = base := by omega
  have h1 : a - base < 2 ^ 24 := by unfold HEAP_SIZE at *; omega
  have h2 : bsize k < 2 ^ 24 := by
    rw [bsize_eq]
    exact Nat.pow_lt_pow_right (by norm_num) (by unfold SCALE_NUMBER at hk; omega)
  have h3 := Nat.xor_lt_two_pow h1 h2
  unfold buddy_of
  rw [hmask, hnum, BLOCK_BIT_eq hk]
  show ((a - base ^^^ bsize k) + base) % WORD = base + (a - base ^^^ bsize k)
  rw [Nat.mod_eq_of_lt (by unfold HEAP_SIZE WORD at *; omega)]
  omega


theorem page_of_head {base a k : Nat} (hb : BaseOk base) (hv : ValidBlock base a k) :
    PAGE_INDEX base a = (a - base) / PAGE_SIZE ∧ (a - base) % UNIT_SIZE = 0 ∧
    a - base < HEAP_SIZE := by
  obtain ⟨hb1, hb2, hb3⟩ := hb
  have h32 : UNIT_SIZE ∣ bsize k := ⟨2 ^ k, rfl⟩
  have h1 : UNIT_SIZE ∣ a := dvd_trans h32 hv.2.2.2
  have h2 : UNIT_SIZE ∣ base :=
    dvd_trans (dvd_trans h32 (bsize_dvd_heap hv.1)) (Nat.dvd_of_mod_eq_zero hb1)
  have h3 := Nat.mod_eq_zero_of_dvd (Nat.dvd_sub' h1 h2)
  have h4 := hv.2.1
  have h5 := hv.2.2.1
  have h6 := bsize_pos k
  refine ⟨?_, h3, by omega⟩
  unfold PAGE_INDEX
  have : (a + WORD - base) % WORD = a - base := by
    have e : a + WORD - base = (a - base) + WORD := by omega
    rw [e, Nat.add_mod_right]
    exact Nat.mod_eq_of_lt (by unfold HEAP_SIZE WORD at *; omega)
  rw [this]

theorem scale_pages {k : Nat} (hk : k < SCALE_NUMBER) :
    SCALE_TO_PAGE k = 1 ∨ ∃ t, SCALE_TO_PAGE k = t ∧ bsize k = PAGE_SIZE * t := by
  unfold SCALE_NUMBER at hk
  interval_cases k
  all_goals first
    | exact Or.inl (by decide)
    | exact Or.inr ⟨_, rfl, by decide⟩


theorem find_index_fresh_low (base index : Nat) {k : Nat} (hk : k ≠ SCALE_NUMBER - 1) :
    list_find_index base index k (init_malloc base) = (0, init_malloc base) := by
  simp [list_find_index, init_malloc, hk]

theorem find_index_fresh_top (base index : Nat) :
    list_find_index base index (SCALE_NUMBER - 1) (init_malloc base) =
      (base, { init_malloc base with
        scale := Function.update (init_malloc base).scale (SCALE_NUMBER - 1) [] }) := by
  simp [list_find_index, list_pop, init_malloc, affinity, EQUAL_OR_ZERO]

theorem scan_fresh {base index m : Nat} {u : Int} (hb : 0 < base)
    (hm : u ≤ ((2 ^ m : Nat) : Int)) (hmin : ∀ j, j < m → ¬ u ≤ ((2 ^ j : Nat) : Int))
    (hm19 : m ≤ SCALE_NUMBER - 1) : ∀ f k ms, k + f = SCALE_NUMBER → k ≤ SCALE_NUMBER - 1 →
    ((ms = none ∧ k ≤ m) ∨ (ms = some m ∧ m < k)) →
    malloc_scan base index u f k ms (init_malloc base) =
      some (base, SCALE_NUMBER - 1, m,
        (list_find_index base index (SCALE_NUMBER - 1) (init_malloc base)).2) := by
  have hS : SCALE_NUMBER = 20 := rfl
  intro f
  induction f with
  | zero => intro k ms h1 h2; omega
  | succ f ih =>
    intro k ms h1 h2 h3
    unfold malloc_scan
    rw [Nat.one_shiftLeft]
    by_cases hkm : k < m
    · rw [if_neg (hmin k hkm)]
      have hms : ms = none := by
        rcases h3 with ⟨e, _⟩ | ⟨_, e⟩
        · exact e
        · omega
      exact ih (k + 1) ms (by omega) (by omega) (Or.inl ⟨hms, by omega⟩)
    · have hu : u ≤ ((2 ^ k : Nat) : Int) := by
        refine le_trans hm ?_
        exact_mod_cast Nat.pow_le_pow_right (by norm_num) (Nat.le_of_not_lt hkm)
      rw [if_pos hu]
      have hget : ms.getD k = m := by
        rcases h3 with ⟨e, h⟩ | ⟨e, _⟩
        · rw [e]; simp; omega
        · rw [e]; simp
      by_cases hk : k = SCALE_NUMBER - 1
      · subst hk
        rw [find_index_fresh_top]
        simp only
        rw [if_pos (by omega), hget]
      · rw [find_index_fresh_low base index hk]
        simp only
        rw [if_neg (by simp), hget]
        exact ih (k + 1) (some m) (by omega) (by omega) (Or.inr ⟨rfl, by omega⟩)

theorem unit_of_size {size : Nat}
    (hsz : (size + HEADER_SIZE + UNIT_SIZE - 1) / UNIT_SIZE ≤ 2 ^ (SCALE_NUMBER - 1)) :
    toInt32 (UNIT_ROUNDUP ((size + HEADER_SIZE) % WORD)) =
      (((size + HEADER_SIZE + UNIT_SIZE - 1) / UNIT_SIZE : Nat) : Int) := by
  unfold HEADER_SIZE UNIT_SIZE SCALE_NUMBER at hsz
  norm_num at hsz
  unfold toInt32 UNIT_ROUNDUP HEADER_SIZE UNIT_SIZE WORD
  have e1 : (size + 8) % 2 ^ 64 = size + 8 := Nat.mod_eq_of_lt (by omega)
  rw [e1]
  have e2 : (size + 8 + 32 - 1) % 2 ^ 64 = size + 8 + 32 - 1 := Nat.mod_eq_of_lt (by omega)
  rw [e2]
  have e3 : (size + 8 + 32 - 1) / 32 % 2 ^ 32 = (size + 8 + 32 - 1) / 32 :=
    Nat.mod_eq_of_lt (by omega)
  rw [e3, if_pos (by omega)]


theorem xor_shift_eq_zero {h k : Nat} (hk : 0 < k) : h ^^^ (h >>> k) = 0 ↔ h = 0 := by
  constructor
  · intro e
    have e2 : h = h >>> k := Nat.xor_eq_zero.mp e
    rw [Nat.shiftRight_eq_div_pow] at e2
    by_contra hne
    have : h / 2 ^ k < h :=
      Nat.div_lt_self (Nat.pos_of_ne_zero hne) (Nat.one_lt_two_pow (by omega))
    omega
  · intro e
    subst e
    simp

theorem xor_shift_lt {h k : Nat} (hh : h < WORD) : h ^^^ (h >>> k) < WORD := by
  unfold WORD at *
  apply Nat.xor_lt_two_pow hh
  rw [Nat.shiftRight_eq_div_pow]
  exact lt_of_le_of_lt (Nat.div_le_self _ _) hh

theorem mul_prime_eq_zero {h : Nat} (hh : h < WORD) : (h * prime) % WORD = 0 ↔ h = 0 := by
  constructor
  · intro e
    have hd : WORD ∣ h * prime := Nat.dvd_of_mod_eq_zero e
    have hc : Nat.Coprime WORD prime := by
      unfold WORD prime
      norm_num
    have := Nat.eq_zero_of_dvd_of_lt (hc.dvd_of_dvd_mul_right hd) hh
    exact this
  · intro e
    subst e
    simp

theorem mix_eq_zero {h : Nat} (hh : h < WORD) : mix h = 0 ↔ h = 0 := by
  unfold mix
  simp only
  have b1 : h ^^^ (h >>> 30) < WORD := xor_shift_lt hh
  have b2 : (h ^^^ (h >>> 30)) * prime % WORD < WORD := Nat.mod_lt _ (by unfold WORD; positivity)
  have b3 := xor_shift_lt (k := 27) b2
  rw [xor_shift_eq_zero (by norm_num), mul_prime_eq_zero b3, xor_shift_eq_zero (by norm_num),
    mul_prime_eq_zero b1, xor_shift_eq_zero (by norm_num)]

theorem unique_id_eq_zero (x s : Nat) : unique_id x s = 0 ↔ (x + s) % WORD = 0 := by
  unfold unique_id
  exact mix_eq_zero (Nat.mod_lt _ (by unfold WORD; positivity))


/-! ## Claims on the allocator -/

/-- C1: round trip. In every state reachable from `init_malloc` by successful
`malloc_wrapper` calls and `free_wrapper` calls on live pointers, when `malloc_wrapper`
succeeds for a process and a size, `free_wrapper` on the returned pointer leaves at every
scale a free list with the same blocks as before the allocation, up to order. -/
theorem malloc_free_round_trip (STACK_STOP : Nat) (hb : BaseOk STACK_STOP) (s : Sys)
    (hr : Reachable STACK_STOP s) (index size ptr : Nat) (h1 : Heap)
    (hm : malloc_wrapper STACK_STOP index size s.heap = .ok (ptr, h1)) :
    ∀ k, ((free_wrapper STACK_STOP index ptr h1).scale k).Perm (s.heap.scale k) ∧
      ∀ a, a ∈ (free_wrapper STACK_STOP index ptr h1).scale k ↔ a ∈ s.heap.scale k := by
  intro k
  have hp := @round_trip_of_inv STACK_STOP index index size ptr s h1 hb (inv_reachable hb hr) hm k
  exact ⟨hp, fun a => hp.mem_iff⟩

theorem malloc_free_round_trip_witness :
    BaseOk sample_base ∧ Reachable sample_base state_two_procs ∧
    malloc_wrapper sample_base 1 200 state_two_procs.heap =
      .ok (sample_base + 1024 + 8, heap_after_200) ∧
    ∀ k, ((free_wrapper sample_base 1 (sample_base + 1024 + 8) heap_after_200).scale k).Perm
        (state_two_procs.heap.scale k) ∧
      ∀ a, a ∈ (free_wrapper sample_base 1 (sample_base + 1024 + 8) heap_after_200).scale k ↔
        a ∈ state_two_procs.heap.scale k :=
  ⟨by decide, ⟨trace_two_procs, rfl⟩, rfl,
    malloc_free_round_trip sample_base (by decide) state_two_procs ⟨trace_two_procs, rfl⟩
      1 200 (sample_base + 1024 + 8) heap_after_200 rfl⟩

/-- C2: free-all returns to the fresh heap. After any sequence of successful
`malloc_wrapper` calls and `free_wrapper` calls on live pointers, started from
`init_malloc`, that leaves no allocation live, the top-scale list holds exactly the block
at the heap base, every other free list is empty, and `procs` and `reman` are zero. -/
theorem free_all_returns_fresh (STACK_STOP : Nat) (hb : BaseOk STACK_STOP) (ops : List Op)
    (s : Sys) (hr : run STACK_STOP (boot STACK_STOP) ops = some s) (hl : s.live = []) :
    (∀ k, s.heap.scale k = if k = SCALE_NUMBER - 1 then [STACK_STOP] else []) ∧
    (∀ pg, s.heap.procs pg = 0) ∧ (∀ pg, s.heap.reman pg = 0) :=
  fresh_of_no_live hb (inv_reachable hb ⟨ops, hr⟩) hl

theorem free_all_returns_fresh_witness :
    BaseOk sample_base ∧
    run sample_base (boot sample_base) trace_free_all = some state_free_all ∧
    state_free_all.live = [] ∧
    (∀ k, state_free_all.heap.scale k = if k = SCALE_NUMBER - 1 then [sample_base] else []) ∧
    (∀ pg, state_free_all.heap.procs pg = 0) ∧ (∀ pg, state_free_all.heap.reman pg = 0) :=
  ⟨by decide, rfl, by decide,
    free_all_returns_fresh sample_base (by decide) trace_free_all state_free_all rfl
      (by decide)⟩

/-- C3: mapped on success. The code breaks the claim: after process 1 allocates two blocks
on the first heap page and releases the first one, `malloc_wrapper(1000)` of process 2
succeeds with the released block, finds `reman` of that page at 1, installs no mapping,
and the page of the returned pointer is not mapped in the page table of process 2. -/
theorem malloc_wrapper_skips_mapping :
    run sample_base (boot sample_base) trace_shared_page = some state_shared_page ∧
    (match malloc_wrapper sample_base 2 1000 state_shared_page.heap with
      | .ok r => (r.1, r.2.pagetable 2 (r.1 / PAGE_SIZE),
          state_shared_page.heap.reman (PAGE_INDEX sample_base (r.1 - HEADER_SIZE)))
      | .error _ => (0, none, 0)) = (sample_base + 8, none, 1) ∧
    (match malloc_wrapper sample_base 2 1000 state_shared_page.heap with
      | .ok r => ¬ mapped_urw (r.2.pagetable 2) r.1 1000
      | .error _ => False) := by
  refine ⟨rfl, by decide, ?_⟩
  have h : (match malloc_wrapper sample_base 2 1000 state_shared_page.heap with
      | .ok r => (r.1, r.2.pagetable 2 (r.1 / PAGE_SIZE))
      | .error _ => (0, some (0, 0))) = (sample_base + 8, none) := by decide
  cases hm : malloc_wrapper sample_base 2 1000 state_shared_page.heap with
  | error e => rw [hm] at h; simp at h
  | ok r =>
    rw [hm] at h
    simp only [Prod.mk.injEq] at h
    intro hmap
    obtain ⟨ppn, hp⟩ := hmap (r.1 / PAGE_SIZE) (le_refl _) (by
      have := Nat.div_mul_le_self r.1 PAGE_SIZE
      omega)
    rw [h.2] at hp
    simp at hp

/-- C4: large enough. The code breaks the claim: on the fresh heap `malloc_wrapper` succeeds
for the sizes `2 ^ 64 - 1` (where `size + sizeof(Header)` wraps to 7) and `2 ^ 36 - 8`
(where the unit count `2 ^ 31` becomes negative in the `int`), in both cases with a block
of scale 0, 32 bytes, which is smaller than `size + sizeof(Header)`. -/
theorem malloc_wrapper_small_block :
    (match malloc_wrapper sample_base 1 (2 ^ 64 - 1) (init_malloc sample_base) with
      | .ok r => some (r.1, r.2.hdr (r.1 - HEADER_SIZE))
      | .error _ => none) = some (sample_base + 8, 0) ∧
    (match malloc_wrapper sample_base 1 (2 ^ 36 - 8) (init_malloc sample_base) with
      | .ok r => some (r.1, r.2.hdr (r.1 - HEADER_SIZE))
      | .error _ => none) = some (sample_base + 8, 0) ∧
    UNIT_SIZE * 2 ^ 0 < (2 ^ 36 - 8) + HEADER_SIZE ∧
    UNIT_SIZE * 2 ^ 0 < (2 ^ 64 - 1) + HEADER_SIZE := by
  decide

/-- C5: too large. The code breaks the claim: for `size = 2 ^ 36` the unit count is
`2 ^ 31 > 524288`, but its conversion to `int` is negative, the test `unit > UNIT_NUMBER`
fails, and on the fresh heap `malloc` returns the block at the heap base at scale 0,
having emptied the top-scale list and stamped `procs`. -/
theorem malloc_misses_beyond_heap :
    UNIT_NUMBER < (2 ^ 36 + UNIT_SIZE - 1) / UNIT_SIZE ∧
    toInt32 (UNIT_ROUNDUP (2 ^ 36)) = -2147483648 ∧
    (match malloc sample_base 1 (2 ^ 36) (init_malloc sample_base) with
      | .ok r => some (r.1, r.2.1, r.2.2.scale (SCALE_NUMBER - 1), r.2.2.scale 0, r.2.2.procs 0)
      | .error _ => none) =
      some (sample_base, 0, [], [sample_base + 32], 1) := by
  decide

/-! ## Claims on the shared-memory registry -/

/-- C6: reference count. The code breaks the claim: `unique_id` can return an id that is
still in use, and `shmget` neither compares the new id with the ids of the table nor mixes
again. In `trace_ram_pages` every page that `kalloc` returns is a RAM page that no slot
holds; after its calls, slot 0 and slot 26 carry the same id, each with count 1, while two
processes, 25 and 60, hold that id. -/
theorem refcount_off_after_collision :
    shm_run sample_nproc sample_share (shm_boot sample_nproc) trace_ram_pages =
      some state_ram_pages ∧
    pages_available sample_ram_lo sample_ram_hi sample_nproc sample_share
      (shm_boot sample_nproc) trace_ram_pages = true ∧
    state_ram_pages.map.getD 0 Slot.empty = ⟨16942318082227431544, 0x80e67000, 1⟩ ∧
    state_ram_pages.map.getD 26 Slot.empty = ⟨16942318082227431544, 0x86fe6000, 1⟩ ∧
    attached sample_nproc state_ram_pages 16942318082227431544 = 2 ∧
    ¬ refcount_ok sample_nproc state_ram_pages := by
  refine ⟨rfl, by decide, by decide, by decide, by decide, ?_⟩
  intro h
  have hm : (⟨16942318082227431544, 0x80e67000, 1⟩ : Slot) ∈ state_ram_pages.map := by
    decide
  have := h _ hm (by decide)
  revert this
  decide

/-- C7: `shmjoin` on unknown ids. The code breaks the claim: `shmjoin` does not test the
result of `map_find`. With id 0 and an empty slot in the table, `map_find(0)` finds that
slot and a call of a process with no attachment returns `SHARE_MEMORY` instead of failing;
with an id that no slot carries the call reads `map.map[-1]`. -/
theorem shmjoin_unknown_id_returns :
    (shmjoin sample_share 0 0 (shm_boot sample_nproc)).value = some sample_share ∧
    (shmjoin sample_share 1 0 state_one_page).value = some sample_share ∧
    map_find 5 state_one_page.map = none ∧
    (shmjoin sample_share 1 5 state_one_page).off_table = true := by
  decide

/-- C8: join idempotence. In every registry state (in particular every reachable one), for
every id of a live slot and every process with no attachment, two calls of `shmjoin(id)` in
a row both return `SHARE_MEMORY`, the second call changes no state, and in total the count
of the slot that `map_find` selects goes up by exactly one (as a 64-bit counter), its id and
page and every other slot being unchanged. -/
theorem shmjoin_twice (SHARE_MEMORY p id idx : Nat) (s : Registry) (hid : id ≠ 0)
    (hf : map_find id s.map = some idx) (hp : s.shm p = 0) :
    ∃ s1, shmjoin SHARE_MEMORY p id s = .ok SHARE_MEMORY s1 ∧
      shmjoin SHARE_MEMORY p id s1 = .ok SHARE_MEMORY s1 ∧
      (s1.map.getD idx Slot.empty).ct = ((s.map.getD idx Slot.empty).ct + 1) % WORD ∧
      ((s.map.getD idx Slot.empty).ct + 1 < WORD →
        (s1.map.getD idx Slot.empty).ct = (s.map.getD idx Slot.empty).ct + 1) ∧
      (s1.map.getD idx Slot.empty).id = id ∧
      (s1.map.getD idx Slot.empty).pa = (s.map.getD idx Slot.empty).pa ∧
      (∀ j, j ≠ idx → s1.map.getD j Slot.empty = s.map.getD j Slot.empty) ∧
      s1.shm p = id ∧ s1.pte p = some ((s.map.getD idx Slot.empty).pa, PTE_URW) := by
  obtain ⟨hlen, hidx, _⟩ := map_find_spec hf
  have hne : ¬ s.shm p = (s.map.getD idx Slot.empty).id := by rw [hidx, hp]; exact Ne.symm hid
  have h1 : shmjoin SHARE_MEMORY p id s = .ok SHARE_MEMORY
      { s with
        shm := Function.update s.shm p (s.map.getD idx Slot.empty).id
        map := s.map.set idx
          { s.map.getD idx Slot.empty with ct := ((s.map.getD idx Slot.empty).ct + 1) % WORD }
        pte := Function.update s.pte p (some ((s.map.getD idx Slot.empty).pa, PTE_URW)) } := by
    unfold shmjoin
    rw [hf]
    simp only
    rw [if_neg hne, if_neg (not_not.mpr hp)]
  refine ⟨_, h1, ?_, ?_, ?_, ?_, ?_, ?_, ?_, ?_⟩
  · unfold shmjoin
    have hf2 : map_find id (s.map.set idx
        { s.map.getD idx Slot.empty with ct := ((s.map.getD idx Slot.empty).ct + 1) % WORD }) =
        some idx := by
      unfold map_find at hf ⊢
      rw [map_find_from_set id s.map 0 idx
        { s.map.getD idx Slot.empty with ct := ((s.map.getD idx Slot.empty).ct + 1) % WORD }
        rfl hlen]
      exact hf
    simp only [hf2, getD_set_self _ _ _ hlen, Function.update_same, if_true]
  · simp only [getD_set_self _ _ _ hlen]
  · intro hlt
    simp only [getD_set_self _ _ _ hlen]
    exact Nat.mod_eq_of_lt hlt
  · simp only [getD_set_self _ _ _ hlen]
    exact hidx
  · simp only [getD_set_self _ _ _ hlen]
  · intro j hj
    simp only [getD_set_other _ _ _ _ hj]
  · simp only [Function.update_same]
    exact hidx
  · simp only [Function.update_same]

theorem shmjoin_twice_witness :
    (11269293714417481661 : Nat) ≠ 0 ∧
    map_find 11269293714417481661 state_one_page.map = some 0 ∧ state_one_page.shm 1 = 0 ∧
    ∃ s1, shmjoin sample_share 1 11269293714417481661 state_one_page = .ok sample_share s1 ∧
      shmjoin sample_share 1 11269293714417481661 s1 = .ok sample_share s1 ∧
      (s1.map.getD 0 Slot.empty).ct = ((state_one_page.map.getD 0 Slot.empty).ct + 1) % WORD ∧
      ((state_one_page.map.getD 0 Slot.empty).ct + 1 < WORD →
        (s1.map.getD 0 Slot.empty).ct = (state_one_page.map.getD 0 Slot.empty).ct + 1) ∧
      (s1.map.getD 0 Slot.empty).id = 11269293714417481661 ∧
      (s1.map.getD 0 Slot.empty).pa = (state_one_page.map.getD 0 Slot.empty).pa ∧
      (∀ j, j ≠ 0 → s1.map.getD j Slot.empty = state_one_page.map.getD j Slot.empty) ∧
      s1.shm 1 = 11269293714417481661 ∧
      s1.pte 1 = some ((state_one_page.map.getD 0 Slot.empty).pa, PTE_URW) :=
  ⟨by decide, by decide, by decide,
    shmjoin_twice sample_share 1 11269293714417481661 0 state_one_page (by decide) (by decide)
      (by decide)⟩


/-- C9: all joiners share one page. The code breaks the claim: `unique_id` can return an id
that is still in use. In `trace_ram_pages` every page that `kalloc` returns is a RAM page
that no slot holds; after its calls, processes 25 and 60 hold the same id and map
`SHARE_MEMORY` to two different physical pages. -/
theorem joiners_on_two_pages :
    shm_run sample_nproc sample_share (shm_boot sample_nproc) trace_ram_pages =
      some state_ram_pages ∧
    pages_available sample_ram_lo sample_ram_hi sample_nproc sample_share
      (shm_boot sample_nproc) trace_ram_pages = true ∧
    state_ram_pages.shm 25 = 16942318082227431544 ∧
    state_ram_pages.shm 60 = 16942318082227431544 ∧
    state_ram_pages.pte 25 = some (0x86fe6000, PTE_URW) ∧
    state_ram_pages.pte 60 = some (0x80e67000, PTE_URW) ∧
    ¬ shared_page_ok sample_nproc state_ram_pages := by
  refine ⟨rfl, by decide, by decide, by decide, by decide, by decide, ?_⟩
  intro h
  have hm : (⟨16942318082227431544, 0x80e67000, 1⟩ : Slot) ∈ state_ram_pages.map := by
    decide
  have := h 25 (by decide) (by decide) _ hm (by decide)
  revert this
  decide

/-- C10: `shmfree` transitions. In every registry state (in particular every reachable one):
a process with `shm = 0` changes nothing; a process attached to a slot with count `n >= 1`
gets `shm = 0` and a cleared leaf entry at `SHARE_MEMORY`, the count of the slot becomes
`n - 1`, the page of the slot is handed to `kfree` and the slot reset to zero exactly when
`n = 1`, otherwise its id and page are unchanged, and every other slot and every other
process is unchanged. -/
theorem shmfree_transitions (p idx : Nat) (s : Registry) :
    (s.shm p = 0 → shmfree p s = .ok () s) ∧
    (s.shm p ≠ 0 → map_find (s.shm p) s.map = some idx →
      1 ≤ (s.map.getD idx Slot.empty).ct → (s.map.getD idx Slot.empty).ct < WORD →
      ∃ s1, shmfree p s = .ok () s1 ∧ s1.shm p = 0 ∧ s1.pte p = none ∧
        (s1.map.getD idx Slot.empty).ct = (s.map.getD idx Slot.empty).ct - 1 ∧
        ((s.map.getD idx Slot.empty).ct = 1 →
          s1.map.getD idx Slot.empty = ⟨0, 0, 0⟩ ∧
          s1.freed = (s.map.getD idx Slot.empty).pa :: s.freed) ∧
        ((s.map.getD idx Slot.empty).ct ≠ 1 →
          (s1.map.getD idx Slot.empty).id = (s.map.getD idx Slot.empty).id ∧
          (s1.map.getD idx Slot.empty).pa = (s.map.getD idx Slot.empty).pa ∧
          s1.freed = s.freed) ∧
        (∀ j, j ≠ idx → s1.map.getD j Slot.empty = s.map.getD j Slot.empty) ∧
        (∀ q, q ≠ p → s1.shm q = s.shm q ∧ s1.pte q = s.pte q) ∧ s1.seed = s.seed) := by
  constructor
  · intro h0
    unfold shmfree
    rw [if_neg (not_not.mpr h0)]
  · intro hne hf hct hw
    obtain ⟨hlen, _, _⟩ := map_find_spec hf
    unfold shmfree
    rw [if_pos hne, hf]
    simp only
    by_cases h1 : (s.map.getD idx Slot.empty).ct = 1
    · have hz : ((s.map.getD idx Slot.empty).ct + WORD - 1) % WORD = 0 := by
        rw [h1]; decide
      rw [if_pos hz]
      refine ⟨_, rfl, ?_, ?_, ?_, ?_, ?_, ?_, ?_, rfl⟩
      · simp only [Function.update_same]
      · simp only [Function.update_same]
      · simp only [getD_set_self _ _ _ hlen, h1]
      · intro _
        exact ⟨getD_set_self _ _ _ hlen, rfl⟩
      · intro hc; exact absurd h1 hc
      · intro j hj
        simp only [getD_set_other _ _ _ _ hj]
      · intro q hq
        simp only [Function.update_noteq hq, and_self]
    · have hm : ((s.map.getD idx Slot.empty).ct + WORD - 1) % WORD =
          (s.map.getD idx Slot.empty).ct - 1 := by
        have : (s.map.getD idx Slot.empty).ct + WORD - 1 =
            ((s.map.getD idx Slot.empty).ct - 1) + WORD := by omega
        rw [this, Nat.add_mod_right]
        exact Nat.mod_eq_of_lt (by omega)
      have hz : ¬ ((s.map.getD idx Slot.empty).ct + WORD - 1) % WORD = 0 := by
        rw [hm]; omega
      rw [if_neg hz]
      refine ⟨_, rfl, ?_, ?_, ?_, ?_, ?_, ?_, ?_, rfl⟩
      · simp only [Function.update_same]
      · simp only [Function.update_same]
      · simp only [getD_set_self _ _ _ hlen, hm]
      · intro hc; exact absurd hc h1
      · intro _
        simp only [getD_set_self _ _ _ hlen, and_self]
      · intro j hj
        simp only [getD_set_other _ _ _ _ hj]
      · intro q hq
        simp only [Function.update_noteq hq, and_self]

theorem shmfree_transitions_witness :
    state_one_page.shm 1 = 0 ∧ shmfree 1 state_one_page = .ok () state_one_page ∧
    state_one_page.shm 0 ≠ 0 ∧ map_find (state_one_page.shm 0) state_one_page.map = some 0 ∧
    1 ≤ (state_one_page.map.getD 0 Slot.empty).ct ∧
    (state_one_page.map.getD 0 Slot.empty).ct < WORD ∧
    ∃ s1, shmfree 0 state_one_page = .ok () s1 ∧ s1.shm 0 = 0 ∧ s1.pte 0 = none ∧
      (s1.map.getD 0 Slot.empty).ct = (state_one_page.map.getD 0 Slot.empty).ct - 1 ∧
      ((state_one_page.map.getD 0 Slot.empty).ct = 1 →
        s1.map.getD 0 Slot.empty = ⟨0, 0, 0⟩ ∧
        s1.freed = (state_one_page.map.getD 0 Slot.empty).pa :: state_one_page.freed) ∧
      ((state_one_page.map.getD 0 Slot.empty).ct ≠ 1 →
        (s1.map.getD 0 Slot.empty).id = (state_one_page.map.getD 0 Slot.empty).id ∧
        (s1.map.getD 0 Slot.empty).pa = (state_one_page.map.getD 0 Slot.empty).pa ∧
        s1.freed = state_one_page.freed) ∧
      (∀ j, j ≠ 0 → s1.map.getD j Slot.empty = state_one_page.map.getD j Slot.empty) ∧
      (∀ q, q ≠ 0 → s1.shm q = state_one_page.shm q ∧ s1.pte q = state_one_page.pte q) ∧
      s1.seed = state_one_page.seed :=
  ⟨by decide, (shmfree_transitions 1 0 state_one_page).1 (by decide), by decide, by decide,
    by decide, by decide,
    (shmfree_transitions 0 0 state_one_page).2 (by decide) (by decide) (by decide) (by decide)⟩


/-! ## Later claims on the registry and the allocator -/

/-- C11: `shmget` failure cases. In every registry state, `shmget` panics when the calling
process already holds an attachment, and when no slot has id 0; in both cases the kernel
stops in the state of the call: slot table, `shm` fields and the seed of `unique_id` are
unchanged. -/
theorem shmget_failures (SHARE_MEMORY p pa : Nat) (s : Registry)
    (h : s.shm p ≠ 0 ∨ ∀ sl ∈ s.map, sl.id ≠ 0) :
    shmget SHARE_MEMORY p pa s = .panic s := by
  unfold shmget
  by_cases h0 : s.shm p ≠ 0
  · rw [if_pos h0]
  · rw [if_neg h0]
    rcases h with h | h
    · exact absurd h h0
    · have : map_find 0 s.map = none := map_find_from_none 0 s.map 0 h
      rw [this]

theorem shmget_failures_witness :
    (state_one_page.shm 0 ≠ 0 ∨ ∀ sl ∈ state_one_page.map, sl.id ≠ 0) ∧
    shmget sample_share 0 0x872fa000 state_one_page = .panic state_one_page :=
  ⟨Or.inl (by decide),
    shmget_failures sample_share 0 0x872fa000 state_one_page (Or.inl (by decide))⟩

/-- C12: uniqueness of ids. The code breaks the claim: `unique_id` mixes the page address
with the previous id and nothing compares the result with the ids in use. After the two
`shmget` calls of `trace_same_id`, slots 0 and 1 are live with the same id. -/
theorem shmget_repeats_live_id :
    shm_run sample_nproc sample_share (shm_boot sample_nproc) trace_same_id =
      some state_same_id ∧
    (state_same_id.map.getD 0 Slot.empty).id = 18419066410886762496 ∧
    (state_same_id.map.getD 1 Slot.empty).id = 18419066410886762496 ∧
    ¬ unique_ids state_same_id := by
  refine ⟨rfl, by decide, by decide, ?_⟩
  intro h
  have := h 0 1 (by decide) (by decide) (by decide) (by decide)
  exact absurd this (by decide)

/-- C13: no mingling. The code breaks the claim: `free` zeroes the owner byte of a page that
still holds a live block. After the calls of `trace_mingled`, the first heap page holds the
live block of process 1 at offset 1024 and the live block of process 2 at offset 0. -/
theorem page_shared_by_two_owners :
    run sample_base (boot sample_base) trace_mingled = some state_mingled ∧
    state_mingled.live = [⟨sample_base, 5, 2⟩, ⟨sample_base + 1024, 5, 1⟩] ∧
    PAGE_INDEX sample_base sample_base = PAGE_INDEX sample_base (sample_base + 1024) ∧
    ¬ no_mingling sample_base state_mingled := by
  refine ⟨rfl, by decide, by decide, ?_⟩
  intro h
  have := h ⟨sample_base, 5, 2⟩ (by decide) ⟨sample_base + 1024, 5, 1⟩ (by decide)
    sample_base (sample_base + 1024) (by decide) (by decide) (by decide)
  exact absurd this (by decide)

/-- C14: owner consistency. The code breaks the claim: `free` zeroes the owner byte of a
page that still holds a live block. After the calls of `trace_shared_page`, the block of
process 1 at offset 1024 is live and the owner byte of its page is 0. -/
theorem live_block_on_unowned_page :
    run sample_base (boot sample_base) trace_shared_page = some state_shared_page ∧
    state_shared_page.live = [⟨sample_base + 1024, 5, 1⟩] ∧
    state_shared_page.heap.procs (PAGE_INDEX sample_base (sample_base + 1024)) = 0 ∧
    ¬ owner_consistent sample_base state_shared_page := by
  refine ⟨rfl, by decide, by decide, ?_⟩
  intro h
  have := h ⟨sample_base + 1024, 5, 1⟩ (by decide) 0 (by decide) (by decide)
  exact absurd this (by decide)


/-- C15: buddy tiling. In every reachable allocator state the free blocks and the live
blocks tile the heap: every block starts at a heap offset that is a multiple of its size
and lies inside the heap, and every byte of the heap lies in exactly one block, so that
the byte ranges are pairwise disjoint and their union is the whole heap. -/
theorem buddy_tiling (STACK_STOP : Nat) (hb : BaseOk STACK_STOP) (s : Sys)
    (hr : Reachable STACK_STOP s) :
    (∀ k a, a ∈ s.heap.scale k → k < SCALE_NUMBER ∧ STACK_STOP ≤ a ∧
      a + UNIT_SIZE * 2 ^ k ≤ STACK_STOP + HEAP_SIZE ∧
      (a - STACK_STOP) % (UNIT_SIZE * 2 ^ k) = 0) ∧
    (∀ a ∈ s.live, a.scale < SCALE_NUMBER ∧ STACK_STOP ≤ a.head ∧
      a.head + UNIT_SIZE * 2 ^ a.scale ≤ STACK_STOP + HEAP_SIZE ∧
      (a.head - STACK_STOP) % (UNIT_SIZE * 2 ^ a.scale) = 0) ∧
    (∀ x, STACK_STOP ≤ x → x < STACK_STOP + HEAP_SIZE →
      freeCount s.heap x + liveCount s.live x = 1) ∧
    (∀ k a b x, a ∈ s.heap.scale k → b ∈ s.live → inBlock a k x →
      ¬ inBlock b.head b.scale x) ∧
    (∀ j k a c x, a ∈ s.heap.scale j → c ∈ s.heap.scale k → (j ≠ k ∨ a ≠ c) →
      inBlock a j x → ¬ inBlock c k x) ∧
    (∀ a b x, a ∈ s.live → b ∈ s.live → a ≠ b → inBlock a.head a.scale x →
      ¬ inBlock b.head b.scale x) := by
  have hi := inv_reachable hb hr
  have hlt : ∀ {a k x}, ValidBlock STACK_STOP a k → inBlock a k x →
      STACK_STOP ≤ x ∧ x < STACK_STOP + HEAP_SIZE := by
    intro a k x hv hx
    have := hv.2.1; have := hv.2.2.1
    unfold inBlock at hx
    omega
  have ht : ∀ x, STACK_STOP ≤ x → x < STACK_STOP + HEAP_SIZE →
      freeCount s.heap x + liveCount s.live x = 1 := by
    intro x h1 h2
    have := hi.tiling x h1 h2
    simpa using this
  refine ⟨?_, ?_, ht, ?_, ?_, ?_⟩
  · intro k a ha
    have hv := hi.lists.free_valid k a ha
    exact ⟨hv.1, hv.2.1, hv.2.2.1, valid_offset hb hv⟩
  · intro a ha
    have hv := (hi.live_valid a ha).1
    exact ⟨hv.1, hv.2.1, hv.2.2.1, valid_offset hb hv⟩
  · intro k a b x ha hbl hax hbx
    have hv := hi.lists.free_valid k a ha
    obtain ⟨h1, h2⟩ := hlt hv hax
    have g := ht x h1 h2
    have g1 : 0 < (s.heap.scale k).countP (fun a => decide (inBlock a k x)) :=
      List.countP_pos_iff.mpr ⟨a, ha, by simpa using hax⟩
    have g2 := countP_le_freeCount s.heap hv.1 x
    have g3 : 0 < liveCount s.live x :=
      List.countP_pos_iff.mpr ⟨b, hbl, by simpa using hbx⟩
    omega
  · intro j k a c x ha hc hne hax hcx
    have hva := hi.lists.free_valid j a ha
    have hvc := hi.lists.free_valid k c hc
    obtain ⟨h1, h2⟩ := hlt hva hax
    have g := ht x h1 h2
    by_cases hjk : j = k
    · subst hjk
      have hac : a ≠ c := by
        rcases hne with e | e
        · exact absurd rfl e
        · exact e
      have g1 := two_le_countP (fun a => decide (inBlock a j x)) _ a c hac ha hc
        (by simpa using hax) (by simpa using hcx)
      have g2 := countP_le_freeCount s.heap hva.1 x
      omega
    · have := two_le_freeCount hjk hva.1 hvc.1 ha hc hax hcx
      omega
  · intro a b x ha hbl hab hax hbx
    have hva := (hi.live_valid a ha).1
    obtain ⟨h1, h2⟩ := hlt hva hax
    have g := ht x h1 h2
    have g1 : 2 ≤ liveCount s.live x :=
      two_le_countP (fun t : Alloc => decide (inBlock t.head t.scale x)) _ a b hab ha hbl
        (by simpa using hax) (by simpa using hbx)
    omega

theorem buddy_tiling_witness :
    BaseOk sample_base ∧ Reachable sample_base state_two_procs ∧
    ((∀ k a, a ∈ state_two_procs.heap.scale k → k < SCALE_NUMBER ∧ sample_base ≤ a ∧
      a + UNIT_SIZE * 2 ^ k ≤ sample_base + HEAP_SIZE ∧
      (a - sample_base) % (UNIT_SIZE * 2 ^ k) = 0) ∧
    (∀ a ∈ state_two_procs.live, a.scale < SCALE_NUMBER ∧ sample_base ≤ a.head ∧
      a.head + UNIT_SIZE * 2 ^ a.scale ≤ sample_base + HEAP_SIZE ∧
      (a.head - sample_base) % (UNIT_SIZE * 2 ^ a.scale) = 0) ∧
    (∀ x, sample_base ≤ x → x < sample_base + HEAP_SIZE →
      freeCount state_two_procs.heap x + liveCount state_two_procs.live x = 1) ∧
    (∀ k a b x, a ∈ state_two_procs.heap.scale k → b ∈ state_two_procs.live → inBlock a k x →
      ¬ inBlock b.head b.scale x) ∧
    (∀ j k a c x, a ∈ state_two_procs.heap.scale j → c ∈ state_two_procs.heap.scale k →
      (j ≠ k ∨ a ≠ c) → inBlock a j x → ¬ inBlock c k x) ∧
    (∀ a b x, a ∈ state_two_procs.live → b ∈ state_two_procs.live → a ≠ b →
      inBlock a.head a.scale x → ¬ inBlock b.head b.scale x)) :=
  ⟨by decide, ⟨trace_two_procs, rfl⟩,
    buddy_tiling sample_base (by decide) state_two_procs ⟨trace_two_procs, rfl⟩⟩


/-- C16: maximal coalescing. In every reachable allocator state, for every scale below the
top scale, no block of the free list of that scale has its buddy, the block at heap offset
XOR block size, in the same list. -/
theorem maximal_coalescing (STACK_STOP : Nat) (hb : BaseOk STACK_STOP) (s : Sys)
    (hr : Reachable STACK_STOP s) (k : Nat) (hk : k < SCALE_NUMBER - 1) (a : Nat)
    (ha : a ∈ s.heap.scale k) :
    STACK_STOP + ((a - STACK_STOP) ^^^ (UNIT_SIZE * 2 ^ k)) ∉ s.heap.scale k := by
  have hi := inv_reachable hb hr
  rw [← buddy_of_eq_xor hb (hi.lists.free_valid k a ha) hk]
  exact hi.lists.coalesced k hk a ha

theorem maximal_coalescing_witness :
    BaseOk sample_base ∧ Reachable sample_base state_two_procs ∧ 5 < SCALE_NUMBER - 1 ∧
    sample_base + 5120 ∈ state_two_procs.heap.scale 5 ∧
    sample_base + ((sample_base + 5120 - sample_base) ^^^ (UNIT_SIZE * 2 ^ 5)) ∉
      state_two_procs.heap.scale 5 :=
  ⟨by decide, ⟨trace_two_procs, rfl⟩, by decide, by decide,
    maximal_coalescing sample_base (by decide) state_two_procs ⟨trace_two_procs, rfl⟩ 5
      (by decide) (sample_base + 5120) (by decide)⟩


/-- C18: unowned pages are cleared. In every reachable allocator state, a heap page that
holds no byte of a live block has owner byte 0. -/
theorem unowned_pages_cleared (STACK_STOP : Nat) (hb : BaseOk STACK_STOP) (s : Sys)
    (hr : Reachable STACK_STOP s) (pg : Nat)
    (h : ∀ a ∈ s.live, ∀ x, inBlock a.head a.scale x → PAGE_INDEX STACK_STOP x ≠ pg) :
    s.heap.procs pg = 0 := by
  have hi := inv_reachable hb hr
  by_contra hne
  obtain ⟨a, ha, h1, h2⟩ := hi.procs_owned pg hne
  have hv := (hi.live_valid a ha).1
  obtain ⟨p1, p2, p3⟩ := page_of_head hb hv
  have hd := bsize_pos a.scale
  rcases scale_pages hv.1 with e | ⟨t, e1, e2⟩
  · rw [e] at h2
    have : PAGE_INDEX STACK_STOP a.head = pg := by omega
    exact h a ha a.head (inBlock_self hv) this
  · rw [e1] at h2
    have hal : PAGE_SIZE ∣ a.head - STACK_STOP := by
      have d1 : bsize a.scale ∣ STACK_STOP :=
        dvd_trans (bsize_dvd_heap hv.1) (Nat.dvd_of_mod_eq_zero hb.1)
      exact dvd_trans ⟨t, e2⟩ (Nat.dvd_sub' hv.2.2.2 d1)
    have hx : inBlock a.head a.scale
        (a.head + (pg - PAGE_INDEX STACK_STOP a.head) * PAGE_SIZE) := by
      unfold inBlock
      rw [e2]
      unfold PAGE_SIZE at *
      omega
    apply h a ha _ hx
    have hvx := hv.2.1
    have hvy := hv.2.2.1
    have hW := hb.2.2
    unfold PAGE_INDEX at h1 h2 ⊢
    unfold inBlock at hx
    have hmod := Nat.mod_eq_zero_of_dvd hal
    unfold PAGE_SIZE HEAP_SIZE WORD at *
    omega

theorem unowned_pages_cleared_witness :
    BaseOk sample_base ∧ Reachable sample_base state_two_procs ∧
    (∀ a ∈ state_two_procs.live, ∀ x, inBlock a.head a.scale x →
      PAGE_INDEX sample_base x ≠ 5) ∧
    state_two_procs.heap.procs 5 = 0 := by
  have hl : state_two_procs.live = [⟨sample_base + 4096, 4, 2⟩, ⟨sample_base, 5, 1⟩] := by
    decide
  have hh : ∀ a ∈ state_two_procs.live, ∀ x, inBlock a.head a.scale x →
      PAGE_INDEX sample_base x ≠ 5 := by
    intro a ha x hx
    rw [hl] at ha
    simp only [List.mem_cons, List.mem_singleton, List.not_mem_nil, or_false] at ha
    rcases ha with rfl | rfl
    · unfold inBlock bsize UNIT_SIZE at hx
      unfold PAGE_INDEX sample_base PAGE_SIZE WORD at *
      simp only at hx
      omega
    · unfold inBlock bsize UNIT_SIZE at hx
      unfold PAGE_INDEX sample_base PAGE_SIZE WORD at *
      simp only at hx
      omega
  exact ⟨by decide, ⟨trace_two_procs, rfl⟩, hh,
    unowned_pages_cleared sample_base (by decide) state_two_procs ⟨trace_two_procs, rfl⟩ 5 hh⟩


/-- C19: split cascade on a fresh heap. For every size whose unit count
`ceil((size + sizeof(Header)) / UNIT_SIZE)` is at most `2^(SCALE_NUMBER-1)`, and `m` the
smallest scale with `2^m` at least that unit count, `malloc_wrapper` on the state produced
by `init_malloc` returns the block at the heap base (the pointer just after its header) with
header scale `m`; afterwards the free list of every scale `s` with
`m <= s <= SCALE_NUMBER-2` holds exactly one block, at heap offset `UNIT_SIZE * 2^s`, and the
lists below `m` and the top-scale list are empty. -/
theorem split_cascade_fresh (STACK_STOP : Nat) (hb : BaseOk STACK_STOP) (index size m : Nat)
    (hsz : (size + HEADER_SIZE + UNIT_SIZE - 1) / UNIT_SIZE ≤ 2 ^ (SCALE_NUMBER - 1))
    (hm : (size + HEADER_SIZE + UNIT_SIZE - 1) / UNIT_SIZE ≤ 2 ^ m)
    (hmin : ∀ j, j < m → ¬ (size + HEADER_SIZE + UNIT_SIZE - 1) / UNIT_SIZE ≤ 2 ^ j) :
    ∃ h, malloc_wrapper STACK_STOP index size (init_malloc STACK_STOP) =
        .ok (STACK_STOP + HEADER_SIZE, h) ∧
      h.hdr STACK_STOP = m ∧
      (∀ s, m ≤ s → s ≤ SCALE_NUMBER - 2 → h.scale s = [STACK_STOP + UNIT_SIZE * 2 ^ s]) ∧
      (∀ s, s < m → h.scale s = []) ∧
      h.scale (SCALE_NUMBER - 1) = [] := by
  have hS : SCALE_NUMBER = 20 := rfl
  have hm19 : m ≤ SCALE_NUMBER - 1 := by
    by_contra hc
    exact hmin (SCALE_NUMBER - 1) (by omega) hsz
  have hu := unit_of_size hsz
  have hscan := @scan_fresh STACK_STOP index m
    (toInt32 (UNIT_ROUNDUP ((size + HEADER_SIZE) % WORD))) hb.2.1
    (by rw [hu]; exact_mod_cast hm)
    (by intro j hj; rw [hu]; exact_mod_cast hmin j hj) hm19
    SCALE_NUMBER 0 none (by omega) (by omega) (Or.inl ⟨rfl, by omega⟩)
  have hguard : ¬ toInt32 (UNIT_ROUNDUP ((size + HEADER_SIZE) % WORD)) > (UNIT_NUMBER : Int) := by
    rw [hu]
    have : (size + HEADER_SIZE + UNIT_SIZE - 1) / UNIT_SIZE ≤ UNIT_NUMBER := by
      refine le_trans hsz ?_
      norm_num [SCALE_NUMBER, UNIT_NUMBER]
    have h2 : (((size + HEADER_SIZE + UNIT_SIZE - 1) / UNIT_SIZE : Nat) : Int) ≤
        (UNIT_NUMBER : Int) := by exact_mod_cast this
    omega
  have hptr : (STACK_STOP + HEADER_SIZE) % WORD = STACK_STOP + HEADER_SIZE := by
    apply Nat.mod_eq_of_lt
    have := hb.2.2
    unfold HEAP_SIZE at this
    unfold HEADER_SIZE
    omega
  have hvalid : ValidBlock STACK_STOP STACK_STOP (SCALE_NUMBER - 1) := by
    refine ⟨by unfold SCALE_NUMBER; omega, le_refl _, by rw [bsize_top], ?_⟩
    rw [bsize_top]
    exact Nat.dvd_of_mod_eq_zero hb.1
  have hsplit := malloc_split_scale (B := STACK_STOP) (m := m) hb (SCALE_NUMBER - 1)
    (list_find_index STACK_STOP index (SCALE_NUMBER - 1) (init_malloc STACK_STOP)).2 hvalid
  rw [find_index_fresh_top] at hsplit hscan
  simp only at hsplit hscan
  unfold malloc_wrapper malloc
  rw [if_neg hguard, hscan]
  simp only
  rw [hptr]
  refine ⟨_, rfl, ?_, ?_, ?_, ?_⟩
  · simp
  · intro s h1 h2
    have hs : s ≠ SCALE_NUMBER - 1 := by unfold SCALE_NUMBER at *; omega
    simp only
    rw [hsplit s, if_pos ⟨h1, by unfold SCALE_NUMBER at *; omega⟩]
    simp [init_malloc, hs, bsize]
  · intro s h1
    have hs : s ≠ SCALE_NUMBER - 1 := by omega
    simp only
    rw [hsplit s, if_neg (by omega)]
    simp [init_malloc, hs]
  · simp only
    rw [hsplit (SCALE_NUMBER - 1), if_neg (by omega)]
    simp

theorem split_cascade_fresh_witness :
    BaseOk sample_base ∧
    (1000 + HEADER_SIZE + UNIT_SIZE - 1) / UNIT_SIZE ≤ 2 ^ (SCALE_NUMBER - 1) ∧
    (1000 + HEADER_SIZE + UNIT_SIZE - 1) / UNIT_SIZE ≤ 2 ^ 5 ∧
    (∀ j, j < 5 → ¬ (1000 + HEADER_SIZE + UNIT_SIZE - 1) / UNIT_SIZE ≤ 2 ^ j) ∧
    ∃ h, malloc_wrapper sample_base 1 1000 (init_malloc sample_base) =
        .ok (sample_base + HEADER_SIZE, h) ∧
      h.hdr sample_base = 5 ∧
      (∀ s, 5 ≤ s → s ≤ SCALE_NUMBER - 2 → h.scale s = [sample_base + UNIT_SIZE * 2 ^ s]) ∧
      (∀ s, s < 5 → h.scale s = []) ∧
      h.scale (SCALE_NUMBER - 1) = [] :=
  ⟨by decide, by decide, by decide, by decide,
    split_cascade_fresh sample_base (by decide) 1 1000 5 (by decide) (by decide) (by decide)⟩


/-- C20: reserved id 0. For 64-bit words `x` and `s`, `unique_id(x)` with internal state `s`
returns the reserved empty-slot value 0 exactly when `x + s` is congruent to 0 modulo `2^64`.
The first id after boot (`s = 0`) for a non-zero page address is therefore non-zero; and
since nothing re-mixes a zero result, `shmget` returns id 0 to a caller that is not attached,
when a slot is free and the page address is the negation of the previous id. -/
theorem unique_id_zero_iff (x s : Nat) (hx : x < WORD) (hs : s < WORD) :
    (unique_id x s = 0 ↔ (x + s) % WORD = 0) ∧
    (s = 0 → x ≠ 0 → unique_id x s ≠ 0) ∧
    (∀ (SHARE_MEMORY p idx : Nat) (r : Registry), r.seed = s → r.shm p = 0 →
      map_find 0 r.map = some idx → (x + s) % WORD = 0 →
      (shmget SHARE_MEMORY p x r).value = some 0) := by
  refine ⟨unique_id_eq_zero x s, ?_, ?_⟩
  · intro h0 hne hz
    subst h0
    rw [unique_id_eq_zero, Nat.add_zero, Nat.mod_eq_of_lt hx] at hz
    exact hne hz
  · intro SHARE_MEMORY p idx r hseed hshm hfind hz
    have hid : unique_id x r.seed = 0 := by
      rw [hseed]; exact (unique_id_eq_zero x s).mpr hz
    obtain ⟨hlen, hidx, _⟩ := map_find_spec hfind
    have hfind2 : map_find 0
        (r.map.set idx { r.map.getD idx Slot.empty with pa := x, id := 0 }) = some idx := by
      unfold map_find at hfind ⊢
      rw [map_find_from_set 0 r.map 0 idx _ hidx.symm hlen]
      exact hfind
    unfold shmget
    rw [if_neg (by simp [hshm]), hfind]
    simp only
    rw [hid]
    unfold shmjoin
    simp only
    rw [hfind2]
    simp only
    rw [if_pos (by rw [hshm, List.getD_eq_getElem?_getD, List.getElem?_set_self (by simpa using hlen)]; rfl)]
    rfl

theorem unique_id_zero_iff_witness :
    0x6254b00cc3f000 < WORD ∧ state_same_id.seed < WORD ∧
    unique_id 0x6254b00cc3f000 state_same_id.seed = 0 ∧
    unique_id 0x81d0a000 0 ≠ 0 ∧
    (shmget sample_share 2 0x6254b00cc3f000 state_same_id).value = some 0 :=
  ⟨by decide, by decide,
    (unique_id_zero_iff 0x6254b00cc3f000 state_same_id.seed (by decide) (by decide)).1.mpr
      (by decide),
    (unique_id_zero_iff 0x81d0a000 0 (by decide) (by decide)).2.1 rfl (by decide),
    (unique_id_zero_iff 0x6254b00cc3f000 state_same_id.seed (by decide) (by decide)).2.2
      sample_share 2 2 state_same_id rfl (by decide) (by decide) (by decide)⟩


end Xv6
